import Mathlib

/-!
Shallow embedding of the data model and algorithms of a personal blog
repository: the library tag-hierarchy and filtering code (`src/lib/library.ts`),
the Goodreads book explorer pipeline (`src/lib/books.ts` and
`src/components/BookExplorer.tsx`), the sync CLI retry loop
(`scripts/sync.ts`) and the SQLite upsert (`scripts/db.ts`).

JavaScript strings are modeled as lists of characters (`Str`); JS `Set` and
`Map` objects are modeled as insertion-ordered lists (with dedup on insert
for sets, replace-on-set for maps); `Array.prototype.sort`, which is
required to be stable, is modeled by `List.mergeSort`; `null`/`undefined`
fields are modeled with `Option`.
-/

namespace Blog

/-- JS strings modeled as lists of characters. -/
abbrev Str := List Char

/-- Whitespace characters recognised by the JS regexes `\s` and by
`String.prototype.trim` (ASCII subset; the non-ASCII whitespace code points
play no role in tag strings). -/
def isSpace (c : Char) : Bool :=
  c = ' ' || c = '\t' || c = '\n' || c = '\r' || c = '\x0b' || c = '\x0c'

/-- `String.prototype.toLowerCase`, per character (ASCII range; characters
outside `[a-z0-9-]` are discarded by `normalizeTag` afterwards). -/
def toLowerStr (s : Str) : Str := s.map Char.toLower

/-- `String.prototype.trim`: drop leading and trailing whitespace. -/
def trimStr (s : Str) : Str :=
  ((s.dropWhile isSpace).reverse.dropWhile isSpace).reverse

/-- Auxiliary for `.replace(/\s+/g, "-")`: the boolean records whether the
previous character was part of a whitespace run already replaced. -/
def collapseWsAux : Bool → Str → Str
  | _, [] => []
  | prevWs, c :: cs =>
    if isSpace c then
      if prevWs then collapseWsAux true cs
      else '-' :: collapseWsAux true cs
    else c :: collapseWsAux false cs

/-- `.replace(/\s+/g, "-")`: each maximal whitespace run becomes one `-`. -/
def collapseWs (s : Str) : Str := collapseWsAux false s

/-- The character class `[a-z0-9-]` of the final regex in `normalizeTag`. -/
def isAllowedTagChar (c : Char) : Bool :=
  ('a' ≤ c && c ≤ 'z') || ('0' ≤ c && c ≤ '9') || c = '-'

/-- `normalizeTag` from `src/lib/library.ts`:
`tag.toLowerCase().trim().replace(/\s+/g, "-").replace(/[^a-z0-9-]/g, "")`. -/
def normalizeTag (s : Str) : Str :=
  (collapseWs (trimStr (toLowerStr s))).filter isAllowedTagChar

/-! ### Library data model (`src/lib/library.ts`) -/

/-- The `ResourceType` union of `src/lib/library.ts`. -/
inductive ResourceType where
  | bookmark | article | paper | video | pdf | epub | tweet | other
deriving DecidableEq

/-- The `ResourceSource` union of `src/lib/library.ts`. -/
inductive ResourceSource where
  | readwise | zotero
deriving DecidableEq

/-- The frontend `Resource` interface of `src/lib/library.ts`.
`readingProgress` is a JS number (a double, hence a rational). -/
structure Resource where
  id : Str
  source : ResourceSource
  type : ResourceType
  title : Str
  url : Str
  author : Option Str
  description : Option Str
  dateAdded : Str
  datePublished : Option Str
  tags : List Str
  imageUrl : Option Str
  readingProgress : Option Rat
  itemType : Option Str
  publicationTitle : Option Str
deriving DecidableEq

/-- `TagNodeConfig`: `displayName`, optional `aliases` (absent modeled as
`[]`, matching `config.aliases || []`), and optional `children`
(a `Record<string, TagNodeConfig>`, modeled as an insertion-ordered
association list, matching `Object.entries`; absent modeled as `[]`). -/
inductive TagNodeConfig where
  | mk (displayName : Str) (aliases : List Str)
       (children : List (Str × TagNodeConfig))

def TagNodeConfig.displayName : TagNodeConfig → Str
  | .mk d _ _ => d

def TagNodeConfig.aliases : TagNodeConfig → List Str
  | .mk _ a _ => a

def TagNodeConfig.children : TagNodeConfig → List (Str × TagNodeConfig)
  | .mk _ _ c => c

/-- `TagNode`: the mutable node objects built by `buildTagNodeFromConfig`.
The JS `Set<string> resourceIds` is modeled as an insertion-ordered
duplicate-free list. -/
inductive TagNode where
  | mk (key : Str) (displayName : Str) (aliases : List Str)
       (children : List TagNode) (resourceCount : Nat) (resourceIds : List Str)

instance : Nonempty TagNodeConfig := ⟨.mk [] [] []⟩

instance : Nonempty TagNode := ⟨.mk [] [] [] [] 0 []⟩

def TagNode.key : TagNode → Str
  | .mk k _ _ _ _ _ => k

def TagNode.displayName : TagNode → Str
  | .mk _ d _ _ _ _ => d

def TagNode.aliases : TagNode → List Str
  | .mk _ _ a _ _ _ => a

def TagNode.children : TagNode → List TagNode
  | .mk _ _ _ c _ _ => c

def TagNode.resourceCount : TagNode → Nat
  | .mk _ _ _ _ n _ => n

def TagNode.resourceIds : TagNode → List Str
  | .mk _ _ _ _ _ i => i

mutual

/-- `buildTagNodeFromConfig` from `src/lib/library.ts`: aliases are
normalized, children built recursively, counts start at zero. -/
def buildTagNodeFromConfig : Str → TagNodeConfig → TagNode
  | key, .mk displayName aliases children =>
    .mk key displayName (aliases.map normalizeTag)
      (buildChildren children) 0 []

/-- The `Object.entries(config.children).map(...)` loop. -/
def buildChildren : List (Str × TagNodeConfig) → List TagNode
  | [] => []
  | (k, c) :: rest => buildTagNodeFromConfig k c :: buildChildren rest

end

mutual

/-- `collectAllTagsInNode`: the normalized key, the (already normalized)
aliases, and recursively all tags of the children.  The JS `Set` is only
ever queried for membership, so a list with possible duplicates is an
adequate model. -/
def collectAllTagsInNode : TagNode → List Str
  | .mk key _ aliases children _ _ =>
    normalizeTag key :: (aliases ++ collectTagsList children)

/-- The `for (const child of node.children)` accumulation. -/
def collectTagsList : List TagNode → List Str
  | [] => []
  | c :: cs => collectAllTagsInNode c ++ collectTagsList cs

end

/-- `Set.prototype.add` on an insertion-ordered duplicate-free list. -/
def addId (ids : List Str) (id : Str) : List Str :=
  if id ∈ ids then ids else ids ++ [id]

/-- The resource scan of `countResourcesInNode`: starting from the node's
current id set, add the id of every resource one of whose tags normalizes
into `allTags` (the inner `break` makes each resource contribute at most
one `Set.add`). -/
def countIds (resources : List Resource) (allTags : List Str)
    (init : List Str) : List Str :=
  resources.foldl
    (fun acc r =>
      if r.tags.any (fun t => decide (normalizeTag t ∈ allTags)) then
        addId acc r.id
      else acc) init

mutual

/-- `countResourcesInNode` from `src/lib/library.ts`, functionally: children
are counted first, then the node's `resourceIds` set is extended with the id
of every resource one of whose tags normalizes into the node's collected tag
set, and `resourceCount` is set to the size of the set. -/
def countResourcesInNode (resources : List Resource) : TagNode → TagNode
  | .mk key dn aliases children _ ri =>
    let children2 := countChildren resources children
    let ids := countIds resources
      (collectAllTagsInNode (.mk key dn aliases children2 0 [])) ri
    .mk key dn aliases children2 ids.length ids

/-- The `for (const child of node.children)` recursion. -/
def countChildren (resources : List Resource) : List TagNode → List TagNode
  | [] => []
  | c :: cs => countResourcesInNode resources c :: countChildren resources cs

end

/-- `Map.prototype.set`: replace the value at an existing key in place, else
append the new entry. -/
def mapSet (m : List (Str × TagNode)) (k : Str) (v : TagNode) :
    List (Str × TagNode) :=
  if m.any (fun p => p.1 = k) then
    m.map (fun p => if p.1 = k then (p.1, v) else p)
  else m ++ [(k, v)]

/-- `Map.prototype.get`. -/
def mapGet (m : List (Str × TagNode)) (k : Str) : Option TagNode :=
  (m.find? (fun p => p.1 = k)).map (fun p => p.2)

mutual

/-- The inner `addNode` of `buildTagLookup`: register the node under its
normalized key and under each alias, then recurse into the children. -/
def addNode : TagNode → List (Str × TagNode) → List (Str × TagNode)
  | .mk key dn aliases children rc ri, m =>
    let n := TagNode.mk key dn aliases children rc ri
    let m1 := mapSet m (normalizeTag key) n
    let m2 := aliases.foldl (fun acc a => mapSet acc a n) m1
    addNodeList children m2

/-- The `for (const child of node.children)` / `for (const node of nodes)`
loops of `buildTagLookup`. -/
def addNodeList : List TagNode → List (Str × TagNode) → List (Str × TagNode)
  | [], m => m
  | c :: cs, m => addNodeList cs (addNode c m)

end

/-- `buildTagLookup` from `src/lib/library.ts`. -/
def buildTagLookup (nodes : List TagNode) : List (Str × TagNode) :=
  addNodeList nodes []

mutual

/-- A node together with all of its descendants (specification helper; the
source walks this set implicitly through its recursions). -/
def subnodes : TagNode → List TagNode
  | .mk k d a cs rc ri => .mk k d a cs rc ri :: subnodesList cs

def subnodesList : List TagNode → List TagNode
  | [] => []
  | c :: cs => subnodes c ++ subnodesList cs

end

/-- Default JS `Array.prototype.sort` string comparison: lexicographic on
character codes. -/
def strLe : Str → Str → Bool
  | [], _ => true
  | _ :: _, [] => false
  | a :: as, b :: bs => if a = b then strLe as bs else decide (a < b)

/-- `TagHierarchyConfig` (the `version`/`description` metadata fields play
no role in the computation and are omitted). -/
structure TagHierarchyConfig where
  hierarchy : List (Str × TagNodeConfig)

/-- The `TagHierarchy` result record. -/
structure TagHierarchy where
  roots : List TagNode
  tagToNode : List (Str × TagNode)
  uncategorizedTags : List Str
  uncategorizedCount : Nat

/-- `buildTagHierarchy` from `src/lib/library.ts`.  In the source the lookup
map is built before the in-place counting pass, but its values alias the
mutated node objects; functionally this is the same as building the lookup
from the counted roots, which is how it is modeled here. -/
def buildTagHierarchy (config : TagHierarchyConfig)
    (resources : List Resource) : TagHierarchy :=
  let roots0 := buildChildren config.hierarchy
  let roots := countChildren resources roots0
  let tagToNode := buildTagLookup roots
  let allConfiguredTags := tagToNode.map (fun p => p.1)
  let uncategorizedTagsSet := resources.foldl
    (fun acc r => r.tags.foldl
      (fun acc2 t =>
        if decide (normalizeTag t ∈ allConfiguredTags) then acc2
        else addId acc2 t) acc) []
  let uncategorizedTags := List.mergeSort uncategorizedTagsSet strLe
  let uncategorizedCount := (resources.filter
    (fun r => r.tags.any
      (fun t => !(decide (normalizeTag t ∈ allConfiguredTags))))).length
  ⟨roots, tagToNode, uncategorizedTags, uncategorizedCount⟩

/-! ### Library filtering, sorting and stats (`src/lib/library.ts`) -/

/-- `String.prototype.includes`: substring (infix) test. -/
def includesStr : Str → Str → Bool
  | [], needle => decide (needle = [])
  | c :: rest, needle => needle.isPrefixOf (c :: rest) || includesStr rest needle

/-- `searchResources`: empty or all-whitespace queries return the input
array itself; otherwise case-insensitive substring match on title, author,
description or any tag (optional chaining on `author`/`description` makes a
missing field a non-match). -/
def searchResources (resources : List Resource) (query : Str) :
    List Resource :=
  if trimStr query = [] then resources
  else
    let q := toLowerStr query
    resources.filter (fun r =>
      includesStr (toLowerStr r.title) q ||
      (match r.author with
       | some a => includesStr (toLowerStr a) q
       | none => false) ||
      (match r.description with
       | some d => includesStr (toLowerStr d) q
       | none => false) ||
      r.tags.any (fun t => includesStr (toLowerStr t) q))

/-- The `ResourceSource | "all"` argument type of `filterBySource`. -/
inductive SourceFilter where
  | all | src (s : ResourceSource)
deriving DecidableEq

/-- The `ResourceType | "all"` argument type of `filterByType`. -/
inductive TypeFilter where
  | all | ty (t : ResourceType)
deriving DecidableEq

def filterBySource (resources : List Resource) (source : SourceFilter) :
    List Resource :=
  match source with
  | .all => resources
  | .src s => resources.filter (fun r => r.source = s)

def filterByType (resources : List Resource) (type : TypeFilter) :
    List Resource :=
  match type with
  | .all => resources
  | .ty t => resources.filter (fun r => r.type = t)

/-- `filterByTagNode`: a `null` (or, being falsy, empty) tag key and an
unknown tag key leave the list unchanged; otherwise keep the resources whose
id is in the node's membership set. -/
def filterByTagNode (resources : List Resource) (hierarchy : TagHierarchy)
    (tagKey : Option Str) : List Resource :=
  match tagKey with
  | none => resources
  | some k =>
    if k = [] then resources
    else
      match mapGet hierarchy.tagToNode (normalizeTag k) with
      | none => resources
      | some node =>
        resources.filter (fun r => decide (r.id ∈ node.resourceIds))

/-- `filterByUncategorized`: resources having some tag whose normal form is
not a key of the lookup map. -/
def filterByUncategorized (resources : List Resource)
    (hierarchy : TagHierarchy) : List Resource :=
  let configuredTags := hierarchy.tagToNode.map (fun p => p.1)
  resources.filter (fun r =>
    r.tags.any (fun t => !(decide (normalizeTag t ∈ configuredTags))))

/-- The `SortBy` union of `src/lib/library.ts`. -/
inductive SortBy where
  | dateAdded | datePublished | title
deriving DecidableEq

/-- The `SortOrder` union (shared verbatim by `src/lib/books.ts`). -/
inductive SortOrder where
  | asc | desc
deriving DecidableEq

/-- The comparator passed to `Array.prototype.sort` by `sortResources`.
`getTime` abstracts `new Date(iso).getTime()` (engine-defined date parsing)
and `lc` abstracts `String.prototype.localeCompare`; both return the signed
JS comparator numbers. -/
def cmpResources (getTime : Str → Int) (lc : Str → Str → Int) (sortBy : SortBy)
    (a b : Resource) : Int :=
  match sortBy with
  | .dateAdded => getTime a.dateAdded - getTime b.dateAdded
  | .datePublished =>
    (match a.datePublished with | some d => getTime d | none => 0) -
    (match b.datePublished with | some d => getTime d | none => 0)
  | .title => lc a.title b.title

/-- `sortResources`: copy, stable sort (`Array.prototype.sort` is required
to be stable; modeled by `List.mergeSort`), and reverse for descending
order. -/
def sortResources (getTime : Str → Int) (lc : Str → Str → Int)
    (resources : List Resource) (sortBy : SortBy) (order : SortOrder) :
    List Resource :=
  let sorted := List.mergeSort resources
    (fun a b => decide (cmpResources getTime lc sortBy a b ≤ 0))
  match order with
  | .desc => sorted.reverse
  | .asc => sorted

/-- The `LibraryStats` record.  `dateRange` is displayed through
locale-dependent date formatting, so it is modeled as the underlying
min/max pair of ISO strings (`none` for the empty string). -/
structure LibraryStats where
  totalResources : Nat
  readwiseCount : Nat
  zoteroCount : Nat
  uniqueTags : Nat
  dateRange : Option (Str × Str)
  byType : List (ResourceType × Nat)

/-- JS `<` on strings: strict lexicographic comparison by character code. -/
def strLt : Str → Str → Bool
  | [], [] => false
  | [], _ :: _ => true
  | _ :: _, [] => false
  | a :: as, b :: bs => if a = b then strLt as bs else decide (a < b)

/-- One step of the `typeCounts` map update
(`typeCounts.set(t, (typeCounts.get(t) || 0) + 1)`). -/
def bumpType (m : List (ResourceType × Nat)) (t : ResourceType) :
    List (ResourceType × Nat) :=
  if m.any (fun p => p.1 = t) then
    m.map (fun p => if p.1 = t then (p.1, p.2 + 1) else p)
  else m ++ [(t, 1)]

/-- `computeLibraryStats` from `src/lib/library.ts` (the `_hierarchy`
argument is unused in the source as well). -/
def computeLibraryStats (resources : List Resource)
    (_hierarchy : TagHierarchy) : LibraryStats :=
  let readwiseCount :=
    (resources.filter (fun r => r.source = ResourceSource.readwise)).length
  let zoteroCount :=
    (resources.filter (fun r => r.source = ResourceSource.zotero)).length
  let allTags := resources.foldl
    (fun acc r => r.tags.foldl (fun acc2 t => addId acc2 (normalizeTag t)) acc)
    []
  let minDate := resources.foldl
    (fun acc r =>
      if acc = [] || strLt r.dateAdded acc then r.dateAdded else acc) []
  let maxDate := resources.foldl
    (fun acc r =>
      if acc = [] || strLt acc r.dateAdded then r.dateAdded else acc) []
  let dateRange :=
    if minDate ≠ [] ∧ maxDate ≠ [] then some (minDate, maxDate) else none
  let typeCounts := resources.foldl (fun m r => bumpType m r.type) []
  let byType := List.mergeSort typeCounts (fun a b => decide (b.2 ≤ a.2))
  { totalResources := resources.length
    readwiseCount := readwiseCount
    zoteroCount := zoteroCount
    uniqueTags := allTags.length
    dateRange := dateRange
    byType := byType }

/-! ### Book explorer (`src/lib/books.ts`, `src/components/BookExplorer.tsx`) -/

namespace Books

/-- The `"read" | "currently-reading" | "to-read"` union of
`BookDisplay.exclusiveShelf`. -/
inductive Shelf where
  | read | currentlyReading | toRead
deriving DecidableEq

/-- The `ShelfFilter` union (`"all"` or a shelf). -/
inductive ShelfFilter where
  | all | shelf (s : Shelf)
deriving DecidableEq

/-- `BookDisplay` from `src/lib/books.ts`.  `avgRating` is a JS double
(`parseFloat`), hence an exact rational; the integer fields come from
`parseInt`. -/
structure BookDisplay where
  id : Str
  title : Str
  author : Str
  additionalAuthors : Str
  myRating : Int
  avgRating : Rat
  pages : Int
  yearPublished : Int
  originalYear : Int
  dateRead : Option Str
  dateAdded : Str
  shelves : List Str
  exclusiveShelf : Shelf
  readCount : Int
  decade : Str
  recommender : Option Str
  amazonSearchUrl : Str
deriving DecidableEq

/-- The book `SortBy` union. -/
inductive SortBy where
  | title | author | myRating | avgRating | pages | year | dateRead
  | dateAdded
deriving DecidableEq

/-- `searchBooks`: blank queries return the input array; otherwise
case-insensitive substring match on title, author or additional authors. -/
def searchBooks (books : List BookDisplay) (query : Str) : List BookDisplay :=
  if trimStr query = [] then books
  else
    let q := toLowerStr query
    books.filter (fun b =>
      includesStr (toLowerStr b.title) q ||
      includesStr (toLowerStr b.author) q ||
      includesStr (toLowerStr b.additionalAuthors) q)

def filterByShelf (books : List BookDisplay) (shelf : ShelfFilter) :
    List BookDisplay :=
  match shelf with
  | .all => books
  | .shelf s => books.filter (fun b => b.exclusiveShelf = s)

def filterByDecades (books : List BookDisplay) (decades : List Str) :
    List BookDisplay :=
  if decades = [] then books
  else books.filter (fun b => decide (b.decade ∈ decades))

/-- `filterByRecommender`: a `null` (or falsy empty) recommender leaves the
list unchanged. -/
def filterByRecommender (books : List BookDisplay)
    (recommender : Option Str) : List BookDisplay :=
  match recommender with
  | none => books
  | some rec =>
    if rec = [] then books
    else books.filter (fun b => b.recommender = some rec)

def filterByRating (books : List BookDisplay) (minRating : Int) :
    List BookDisplay :=
  if minRating = 0 then books
  else books.filter (fun b => minRating ≤ b.myRating)

/-- The comparator of `sortBooks`.  `lc` abstracts
`String.prototype.localeCompare`; the rational return value carries the sign
the JS number comparator would have. -/
def cmpBooks (lc : Str → Str → Int) (sortBy : SortBy) (a b : BookDisplay) :
    Rat :=
  match sortBy with
  | .title => (lc a.title b.title : Int)
  | .author => (lc a.author b.author : Int)
  | .myRating => ((a.myRating - b.myRating : Int) : Rat)
  | .avgRating => a.avgRating - b.avgRating
  | .pages => ((a.pages - b.pages : Int) : Rat)
  | .year => ((a.yearPublished - b.yearPublished : Int) : Rat)
  | .dateRead =>
    match a.dateRead, b.dateRead with
    | none, none => 0
    | none, some _ => 1
    | some _, none => -1
    | some da, some db => (lc da db : Int)
  | .dateAdded => (lc a.dateAdded b.dateAdded : Int)

/-- `sortBooks`: copy, stable sort, reverse when descending. -/
def sortBooks (lc : Str → Str → Int) (books : List BookDisplay)
    (sortBy : SortBy) (order : SortOrder) : List BookDisplay :=
  let sorted := List.mergeSort books
    (fun a b => decide (cmpBooks lc sortBy a b ≤ 0))
  match order with
  | .desc => sorted.reverse
  | .asc => sorted

def getDecades (books : List BookDisplay) : List Str :=
  List.mergeSort
    ((books.foldl (fun acc b => addId acc b.decade) []).filter
      (fun d => d ≠ "Unknown".toList))
    strLe

def getRecommenders (books : List BookDisplay) : List Str :=
  List.mergeSort
    (books.foldl
      (fun acc b => match b.recommender with
        | some rec => addId acc rec
        | none => acc) [])
    strLe

/-- `PAGE_SIZE` from `src/components/BookExplorer.tsx`. -/
def PAGE_SIZE : Nat := 25

/-- The `filteredBooks` memo of `BookExplorer`: search, shelf, decade and
recommender filters followed by the sort. -/
def filteredBooks (lc : Str → Str → Int) (books : List BookDisplay)
    (search : Str) (shelfFilter : ShelfFilter) (selectedDecades : List Str)
    (selectedRecommender : Option Str) (sortBy : SortBy)
    (sortOrder : SortOrder) : List BookDisplay :=
  sortBooks lc
    (filterByRecommender
      (filterByDecades
        (filterByShelf (searchBooks books search) shelfFilter)
        selectedDecades)
      selectedRecommender)
    sortBy sortOrder

/-- The `paginatedBooks` memo: `filteredBooks.slice(page * PAGE_SIZE,
page * PAGE_SIZE + PAGE_SIZE)`. -/
def paginatedBooks (lc : Str → Str → Int) (books : List BookDisplay)
    (search : Str) (shelfFilter : ShelfFilter) (selectedDecades : List Str)
    (selectedRecommender : Option Str) (sortBy : SortBy)
    (sortOrder : SortOrder) (page : Nat) : List BookDisplay :=
  ((filteredBooks lc books search shelfFilter selectedDecades
      selectedRecommender sortBy sortOrder).drop
    (page * PAGE_SIZE)).take PAGE_SIZE

/-- `totalPages = Math.ceil(filteredBooks.length / PAGE_SIZE)`. -/
def totalPages (lc : Str → Str → Int) (books : List BookDisplay)
    (search : Str) (shelfFilter : ShelfFilter) (selectedDecades : List Str)
    (selectedRecommender : Option Str) (sortBy : SortBy)
    (sortOrder : SortOrder) : Nat :=
  ((filteredBooks lc books search shelfFilter selectedDecades
      selectedRecommender sortBy sortOrder).length + PAGE_SIZE - 1) /
    PAGE_SIZE

end Books

/-! ### Sync CLI retry loop (`scripts/sync.ts`) -/

namespace Sync

/-- The part of a `fetch` `Response` inspected by `fetchWithRetry`: the
status code and the raw `Retry-After` header
(`response.headers.get("Retry-After")`, `null` when absent). -/
structure Response where
  status : Int
  retryAfter : Option Str
deriving DecidableEq

/-- `MAX_RETRIES` from `scripts/sync.ts`. -/
def MAX_RETRIES : Nat := 3

def isDigit (c : Char) : Bool := '0' ≤ c && c ≤ '9'

def digitsToNat (l : Str) : Nat :=
  l.foldl (fun n c => 10 * n + (c.toNat - ('0' : Char).toNat)) 0

/-- The digit-run part of `Number.parseInt(s, 10)`: the longest leading run
of decimal digits, `none` (JS `NaN`) when there is none. -/
def parseDigits (u : Str) : Option Nat :=
  let d := u.takeWhile isDigit
  if d = [] then none else some (digitsToNat d)

/-- `Number.parseInt(s, 10)`: skip leading whitespace, optional sign, then
the longest run of decimal digits; `none` models `NaN`. -/
def parseIntJs (s : Str) : Option Int :=
  match s.dropWhile isSpace with
  | [] => none
  | c :: rest =>
    if c = '-' then (parseDigits rest).map (fun n => -(n : Int))
    else if c = '+' then (parseDigits rest).map (fun n => (n : Int))
    else (parseDigits (c :: rest)).map (fun n => (n : Int))

/-- The wait computed from a 429 response:
`retryAfter ? Number.parseInt(retryAfter, 10) * 1000 : 60000`.  An absent
header — or an empty header string, which is falsy — gives 60000 ms; a
header that `parseInt` cannot parse gives `NaN`, and `setTimeout` with a
`NaN` delay fires immediately, modeled as a 0 ms wait. -/
def waitMsOf (r : Response) : Int :=
  match r.retryAfter with
  | none => 60000
  | some h =>
    if h = [] then 60000
    else
      match parseIntJs h with
      | some n => n * 1000
      | none => 0

/-- The observable trace of one `fetchWithRetry` call: the returned
response, how many `fetch`es were performed, and the successive `delay`
durations in milliseconds. -/
structure FetchResult where
  response : Response
  fetchCount : Nat
  waits : List Int
deriving DecidableEq

/-- `fetchWithRetry` from `scripts/sync.ts`.  `fetchF n` is the response of
the `n`-th `fetch` issued for this URL/options pair (the network abstracted
as an oracle); the recursion on the retry budget mirrors
`fetchWithRetry(url, options, retries - 1)`. -/
def fetchWithRetry (fetchF : Nat → Response) (attempt : Nat) :
    Nat → FetchResult
  | 0 => { response := fetchF attempt, fetchCount := 1, waits := [] }
  | retries + 1 =>
    let response := fetchF attempt
    if response.status = 429 then
      let rest := fetchWithRetry fetchF (attempt + 1) retries
      { response := rest.response
        fetchCount := rest.fetchCount + 1
        waits := waitMsOf response :: rest.waits }
    else { response := response, fetchCount := 1, waits := [] }

end Sync

/-! ### Embedded database upsert (`scripts/db.ts`) -/

namespace Db

/-- The `Resource` interface of `scripts/db.ts`.  The string-union fields
(`type`, `source`, `status`) are stored as SQL `TEXT` and modeled as
strings; `tags` and `metadata` are serialized with `JSON.stringify` (an
injective encoding), so `tags` keeps its list form and `metadata` is carried
as its serialized text. -/
structure Resource where
  id : Str
  type : Str
  title : Str
  url : Option Str
  author : Option Str
  description : Option Str
  tags : Option (List Str)
  source : Str
  source_id : Option Str
  metadata : Option Str
  image_url : Option Str
  reading_progress : Option Rat
  date_published : Option Str
  item_type : Option Str
  publication_title : Option Str
  status : Option Str
  status_manual : Option Int
  platform_status : Option Str
  favorited : Option Int
  rating : Option Int
  queue_priority : Option Int
deriving DecidableEq

/-- One row of the `resources` table, restricted to the columns
`upsertResource` reads or writes (the `created_at`/`updated_at`/
`classified_at` timestamps, filled from `datetime('now')`, are outside the
model). -/
structure Row where
  id : Str
  type : Str
  title : Str
  url : Option Str
  author : Option Str
  description : Option Str
  tags : Option (List Str)
  source : Str
  source_id : Option Str
  metadata : Option Str
  status : Option Str
  status_manual : Option Int
  platform_status : Option Str
  favorited : Option Int
  rating : Option Int
  queue_priority : Option Int
  image_url : Option Str
  date_published : Option Str
deriving DecidableEq

/-- The bound values of the prepared `INSERT`: the `stmt.run(...)`
argument list, with its `?? null` / `?? 0` defaults (`tags` and `metadata`
pass through `JSON.stringify`, kept structural here). -/
def bindRow (r : Resource) : Row :=
  { id := r.id, type := r.type, title := r.title, url := r.url
    author := r.author, description := r.description, tags := r.tags
    source := r.source, source_id := r.source_id, metadata := r.metadata
    status := r.status, status_manual := some (r.status_manual.getD 0)
    platform_status := r.platform_status
    favorited := some (r.favorited.getD 0)
    rating := r.rating, queue_priority := r.queue_priority
    image_url := r.image_url, date_published := r.date_published }

/-- The `ON CONFLICT(id) DO UPDATE SET` clause applied to the existing row
`old` and the incoming bound values `excluded`: plain columns take the
excluded value; `image_url`, `date_published`, `favorited` and `rating` are
`COALESCE(excluded.x, resources.x)`; `status` and `queue_priority` are kept
when `resources.status_manual = 1` (SQL three-valued logic: a `NULL`
`status_manual` compares as not-1); `status_manual` is not in the update
list and keeps its old value. -/
def mergeRow (old excluded : Row) : Row :=
  { id := old.id
    type := excluded.type, title := excluded.title, url := excluded.url
    author := excluded.author, description := excluded.description
    tags := excluded.tags, source := excluded.source
    source_id := excluded.source_id, metadata := excluded.metadata
    platform_status := excluded.platform_status
    image_url :=
      match excluded.image_url with
      | some v => some v
      | none => old.image_url
    date_published :=
      match excluded.date_published with
      | some v => some v
      | none => old.date_published
    status :=
      if old.status_manual = some 1 then old.status else excluded.status
    queue_priority :=
      if old.status_manual = some 1 then old.queue_priority
      else excluded.queue_priority
    favorited :=
      match excluded.favorited with
      | some v => some v
      | none => old.favorited
    rating :=
      match excluded.rating with
      | some v => some v
      | none => old.rating
    status_manual := old.status_manual }

/-- `upsertResource` from `scripts/db.ts` on a database state modeled as the
ordered list of rows of the `resources` table: insert when no row carries
the id (`id` is the primary key), otherwise apply the conflict update to the
row with that id.  (The separate `UNIQUE(source, source_id)` constraint is
outside the scope of the id-conflict behaviour modeled here.) -/
def upsertResource (db : List Row) (resource : Resource) : List Row :=
  if db.any (fun row => row.id = resource.id) then
    db.map (fun row =>
      if row.id = resource.id then mergeRow row (bindRow resource) else row)
  else db ++ [bindRow resource]

/-- `SELECT ... WHERE id = ?`: the first row with the given id. -/
def findRow (db : List Row) (id : Str) : Option Row :=
  db.find? (fun row => row.id = id)

end Db

/-- Existing database row used to exercise `upsertResource` on an id
conflict: it carries a non-null `image_url` and is not manually curated. -/
def exOldRow : Db.Row :=
  { id := ['a'], type := ['b'], title := ['t'], url := none, author := none
    description := none, tags := none, source := ['s'], source_id := none
    metadata := none, status := none, status_manual := some 0
    platform_status := none, favorited := some 0, rating := none
    queue_priority := none, image_url := some ['x'], date_published := none }

/-- Incoming resource with the same id and a `null` (absent) `image_url`. -/
def exNewRes : Db.Resource :=
  { id := ['a'], type := ['b'], title := ['u'], url := none, author := none
    description := none, tags := none, source := ['s'], source_id := none
    metadata := none, image_url := none, reading_progress := none
    date_published := none, item_type := none, publication_title := none
    status := none, status_manual := none, platform_status := none
    favorited := none, rating := none, queue_priority := none }

/-! ### String normalization lemmas -/

theorem mem_normalizeTag_allowed {t : Str} {c : Char} (h : c ∈ normalizeTag t) :
    isAllowedTagChar c = true :=
  (List.mem_filter.1 h).2

theorem allowed_not_space {c : Char} (h : isAllowedTagChar c = true) :
    isSpace c = false := by
  cases hx : isSpace c
  · rfl
  · exfalso
    simp only [isSpace, Bool.or_eq_true, decide_eq_true_eq] at hx
    rcases hx with ((((h1 | h1) | h1) | h1) | h1) | h1 <;> subst h1 <;>
      exact absurd h (by decide)

theorem allowed_toLower {c : Char} (h : isAllowedTagChar c = true) :
    Char.toLower c = c := by
  simp only [isAllowedTagChar, Bool.or_eq_true, Bool.and_eq_true,
    decide_eq_true_eq] at h
  have hnot : ¬(c.toNat ≥ 65 ∧ c.toNat ≤ 90) := by
    rcases h with (⟨h1, _⟩ | ⟨_, h2⟩) | h1
    · have ha : ('a' : Char).toNat ≤ c.toNat := h1
      have hv : ('a' : Char).toNat = 97 := by decide
      omega
    · have hb : c.toNat ≤ ('9' : Char).toNat := h2
      have hv : ('9' : Char).toNat = 57 := by decide
      omega
    · subst h1; decide
  show (if c.toNat ≥ 65 ∧ c.toNat ≤ 90 then Char.ofNat (c.toNat + 32) else c) = c
  rw [if_neg hnot]

theorem dropWhile_eq_self_of_no {p : Char → Bool} {l : Str}
    (h : ∀ c ∈ l, p c = false) : l.dropWhile p = l := by
  cases l with
  | nil => rfl
  | cons c cs =>
    rw [List.dropWhile_cons]
    simp [h c (List.mem_cons_self c cs)]

theorem trimStr_eq_self_of_allowed {l : Str}
    (h : ∀ c ∈ l, isAllowedTagChar c = true) : trimStr l = l := by
  unfold trimStr
  have h1 : ∀ c ∈ l, isSpace c = false := fun c hc => allowed_not_space (h c hc)
  rw [dropWhile_eq_self_of_no h1]
  rw [dropWhile_eq_self_of_no (fun c hc => h1 c (List.mem_reverse.1 hc))]
  exact List.reverse_reverse l

theorem collapseWsAux_eq_self_of_no_space {l : Str} (b : Bool)
    (h : ∀ c ∈ l, isSpace c = false) : collapseWsAux b l = l := by
  induction l generalizing b with
  | nil => rfl
  | cons c cs ih =>
    unfold collapseWsAux
    rw [h c (List.mem_cons_self c cs)]
    simp only [Bool.false_eq_true, if_false]
    rw [ih false (fun x hx => h x (List.mem_cons_of_mem c hx))]

theorem toLowerStr_eq_self_of_allowed {l : Str}
    (h : ∀ c ∈ l, isAllowedTagChar c = true) : toLowerStr l = l := by
  induction l with
  | nil => rfl
  | cons c cs ih =>
    have ih2 : toLowerStr cs = cs :=
      ih (fun x hx => h x (List.mem_cons_of_mem c hx))
    simp only [toLowerStr, List.map_cons] at *
    rw [allowed_toLower (h c (List.mem_cons_self c cs)), ih2]

/-- `normalizeTag` is the identity on strings all of whose characters are in
`[a-z0-9-]`. -/
theorem normalizeTag_eq_self_of_allowed {l : Str}
    (h : ∀ c ∈ l, isAllowedTagChar c = true) : normalizeTag l = l := by
  unfold normalizeTag collapseWs
  rw [toLowerStr_eq_self_of_allowed h, trimStr_eq_self_of_allowed h,
    collapseWsAux_eq_self_of_no_space false
      (fun c hc => allowed_not_space (h c hc)),
    List.filter_eq_self.2 h]

/-- `normalizeTag` is idempotent. -/
theorem normalizeTag_idem (t : Str) :
    normalizeTag (normalizeTag t) = normalizeTag t :=
  normalizeTag_eq_self_of_allowed (fun _ hc => mem_normalizeTag_allowed hc)

/-! ### Tag tree lemmas -/

theorem tagNodeInd {P : TagNode → Prop}
    (ih : ∀ k d a cs rc ri, (∀ c ∈ cs, P c) → P (TagNode.mk k d a cs rc ri)) :
    ∀ n, P n
  | .mk k d a cs rc ri => ih k d a cs rc ri
      (fun c hc => tagNodeInd ih c)
termination_by n => sizeOf n
decreasing_by
  have h1 := List.sizeOf_lt_of_mem hc
  simp only [TagNode.mk.sizeOf_spec]
  omega

theorem tagConfigInd {P : TagNodeConfig → Prop}
    (ih : ∀ d a cs, (∀ p ∈ cs, P p.2) → P (TagNodeConfig.mk d a cs)) :
    ∀ c, P c
  | .mk d a cs => ih d a cs
      (fun p hp => tagConfigInd ih p.2)
termination_by c => sizeOf c
decreasing_by
  have h1 := List.sizeOf_lt_of_mem hp
  have h2 : sizeOf p.2 < sizeOf p := by
    obtain ⟨x, y⟩ := p
    simp only [Prod.mk.sizeOf_spec]
    omega
  simp only [TagNodeConfig.mk.sizeOf_spec]
  omega

theorem mem_subnodesList {x : TagNode} : ∀ {cs : List TagNode},
    x ∈ subnodesList cs ↔ ∃ c ∈ cs, x ∈ subnodes c := by
  intro cs
  induction cs with
  | nil => simp [subnodesList]
  | cons c rest ih =>
    simp only [subnodesList, List.mem_append, ih, List.mem_cons]
    constructor
    · rintro (h | ⟨c2, hc2, hx⟩)
      · exact ⟨c, Or.inl rfl, h⟩
      · exact ⟨c2, Or.inr hc2, hx⟩
    · rintro ⟨c2, hc2 | hc2, hx⟩
      · subst hc2; exact Or.inl hx
      · exact Or.inr ⟨c2, hc2, hx⟩

theorem self_mem_subnodes (n : TagNode) : n ∈ subnodes n := by
  cases n with
  | mk k d a cs rc ri => simp [subnodes]

theorem mem_subnodes_of_child {c n x : TagNode} (hc : c ∈ n.children)
    (hx : x ∈ subnodes c) : x ∈ subnodes n := by
  cases n with
  | mk k d a cs rc ri =>
    simp only [TagNode.children] at hc
    simp only [subnodes, List.mem_cons]
    exact Or.inr (mem_subnodesList.2 ⟨c, hc, hx⟩)

theorem subnodes_trans : ∀ (n : TagNode), ∀ x ∈ subnodes n,
    ∀ y ∈ subnodes x, y ∈ subnodes n := by
  intro n
  induction n using tagNodeInd with
  | ih k d a cs rc ri hI =>
    intro x hx y hy
    simp only [subnodes, List.mem_cons] at hx
    rcases hx with rfl | hx2
    · exact hy
    · obtain ⟨c, hc, hxc⟩ := mem_subnodesList.1 hx2
      have := hI c hc x hxc y hy
      exact mem_subnodes_of_child (by simpa [TagNode.children] using hc) this

theorem mem_collectTagsList {v : Str} : ∀ {cs : List TagNode},
    v ∈ collectTagsList cs ↔ ∃ c ∈ cs, v ∈ collectAllTagsInNode c := by
  intro cs
  induction cs with
  | nil => simp [collectTagsList]
  | cons c rest ih =>
    simp only [collectTagsList, List.mem_append, ih, List.mem_cons]
    constructor
    · rintro (h | ⟨c2, hc2, hx⟩)
      · exact ⟨c, Or.inl rfl, h⟩
      · exact ⟨c2, Or.inr hc2, hx⟩
    · rintro ⟨c2, hc2 | hc2, hx⟩
      · subst hc2; exact Or.inl hx
      · exact Or.inr ⟨c2, hc2, hx⟩

theorem mem_collectAllTags (n : TagNode) (v : Str) :
    v ∈ collectAllTagsInNode n ↔
      ∃ m ∈ subnodes n, v = normalizeTag m.key ∨ v ∈ m.aliases := by
  induction n using tagNodeInd with
  | ih k d a cs rc ri hI =>
    simp only [collectAllTagsInNode, subnodes, List.mem_cons,
      List.mem_append, mem_collectTagsList, mem_subnodesList]
    constructor
    · rintro (rfl | h | ⟨c, hc, hv⟩)
      · exact ⟨TagNode.mk k d a cs rc ri, Or.inl rfl,
          Or.inl (by simp [TagNode.key])⟩
      · exact ⟨TagNode.mk k d a cs rc ri, Or.inl rfl,
          Or.inr (by simpa [TagNode.aliases] using h)⟩
      · obtain ⟨m, hm, hv2⟩ := (hI c hc).1 hv
        exact ⟨m, Or.inr ⟨c, hc, hm⟩, hv2⟩
    · rintro ⟨m, hm | ⟨c, hc, hm⟩, hv2⟩
      · subst hm
        simp only [TagNode.key, TagNode.aliases] at hv2
        rcases hv2 with rfl | h
        · exact Or.inl rfl
        · exact Or.inr (Or.inl h)
      · exact Or.inr (Or.inr ⟨c, hc, (hI c hc).2 ⟨m, hm, hv2⟩⟩)

theorem countChildren_eq_map (res : List Resource) :
    ∀ cs : List TagNode,
      countChildren res cs = cs.map (countResourcesInNode res) := by
  intro cs
  induction cs with
  | nil => rfl
  | cons c rest ih => simp only [countChildren, List.map_cons, ih]

theorem collectTagsList_countChildren (res : List Resource)
    {cs : List TagNode}
    (H : ∀ c ∈ cs, collectAllTagsInNode (countResourcesInNode res c) =
      collectAllTagsInNode c) :
    collectTagsList (countChildren res cs) = collectTagsList cs := by
  induction cs with
  | nil => rfl
  | cons c rest ih =>
    simp only [countChildren, collectTagsList]
    rw [H c (List.mem_cons_self c rest),
      ih (fun x hx => H x (List.mem_cons_of_mem c hx))]

theorem collect_count (res : List Resource) :
    ∀ n : TagNode, collectAllTagsInNode (countResourcesInNode res n) =
      collectAllTagsInNode n := by
  intro n
  induction n using tagNodeInd with
  | ih k d a cs rc ri hI =>
    show collectAllTagsInNode
        (TagNode.mk k d a (countChildren res cs) _ _) =
      collectAllTagsInNode (TagNode.mk k d a cs rc ri)
    simp only [collectAllTagsInNode]
    rw [collectTagsList_countChildren res hI]

theorem mem_addId {ids : List Str} {x id : Str} :
    x ∈ addId ids id ↔ x ∈ ids ∨ x = id := by
  unfold addId
  by_cases h : id ∈ ids
  · rw [if_pos h]
    constructor
    · exact Or.inl
    · rintro (hx | rfl)
      · exact hx
      · exact h
  · rw [if_neg h]
    simp [List.mem_append]

theorem nodup_addId {ids : List Str} {id : Str} (h : ids.Nodup) :
    (addId ids id).Nodup := by
  unfold addId
  by_cases hm : id ∈ ids
  · rwa [if_pos hm]
  · rw [if_neg hm]
    refine List.Nodup.append h (List.nodup_singleton id) ?_
    intro x hx hx2
    simp only [List.mem_singleton] at hx2
    subst hx2
    exact hm hx

theorem mem_countIds {allTags : List Str} :
    ∀ (l : List Resource) (acc : List Str) (id : Str),
      id ∈ countIds l allTags acc ↔
        id ∈ acc ∨ ∃ r ∈ l, r.id = id ∧
          ∃ t ∈ r.tags, normalizeTag t ∈ allTags := by
  intro l
  induction l with
  | nil => intro acc id; simp [countIds]
  | cons r rest ih =>
    intro acc id
    unfold countIds at ih ⊢
    simp only [List.foldl_cons]
    by_cases hp : (r.tags.any fun t => decide (normalizeTag t ∈ allTags)) = true
    · rw [if_pos hp]
      rw [ih (addId acc r.id) id]
      have hpe : ∃ t ∈ r.tags, normalizeTag t ∈ allTags := by
        rw [List.any_eq_true] at hp
        obtain ⟨t, ht, ht2⟩ := hp
        exact ⟨t, ht, of_decide_eq_true ht2⟩
      constructor
      · rintro (hmem | hrest)
        · rcases mem_addId.1 hmem with hacc | rfl
          · exact Or.inl hacc
          · exact Or.inr ⟨r, List.mem_cons_self r rest, rfl, hpe⟩
        · obtain ⟨r2, hr2, he⟩ := hrest
          exact Or.inr ⟨r2, List.mem_cons_of_mem r hr2, he⟩
      · rintro (hacc | ⟨r2, hr2, hid, hte⟩)
        · exact Or.inl (mem_addId.2 (Or.inl hacc))
        · rcases List.mem_cons.1 hr2 with rfl | hr2
          · exact Or.inl (mem_addId.2 (Or.inr hid.symm))
          · exact Or.inr ⟨r2, hr2, hid, hte⟩
    · rw [if_neg hp]
      rw [ih acc id]
      have hpne : ¬∃ t ∈ r.tags, normalizeTag t ∈ allTags := by
        intro ⟨t, ht, ht2⟩
        apply hp
        rw [List.any_eq_true]
        exact ⟨t, ht, decide_eq_true ht2⟩
      constructor
      · rintro (hacc | ⟨r2, hr2, he⟩)
        · exact Or.inl hacc
        · exact Or.inr ⟨r2, List.mem_cons_of_mem r hr2, he⟩
      · rintro (hacc | ⟨r2, hr2, hid, hte⟩)
        · exact Or.inl hacc
        · rcases List.mem_cons.1 hr2 with rfl | hr2
          · exact absurd hte hpne
          · exact Or.inr ⟨r2, hr2, hid, hte⟩

theorem nodup_countIds {allTags : List Str} :
    ∀ (l : List Resource) (acc : List Str), acc.Nodup →
      (countIds l allTags acc).Nodup := by
  intro l
  induction l with
  | nil => intro acc h; simpa [countIds] using h
  | cons r rest ih =>
    intro acc h
    unfold countIds at ih ⊢
    simp only [List.foldl_cons]
    by_cases hp : (r.tags.any fun t => decide (normalizeTag t ∈ allTags)) = true
    · rw [if_pos hp]
      exact ih (addId acc r.id) (nodup_addId h)
    · rw [if_neg hp]
      exact ih acc h

theorem count_spec (res : List Resource) :
    ∀ n : TagNode, (∀ m ∈ subnodes n, m.resourceIds = []) →
      ∀ x ∈ subnodes (countResourcesInNode res n),
        (∀ id, id ∈ x.resourceIds ↔
          ∃ r ∈ res, r.id = id ∧ ∃ t ∈ r.tags,
            normalizeTag t ∈ collectAllTagsInNode x) ∧
        x.resourceCount = x.resourceIds.length ∧
        x.resourceIds.Nodup := by
  intro n
  induction n using tagNodeInd with
  | ih k d a cs rc ri hI =>
    intro hfresh x hx
    have hri : ri = [] := by
      have := hfresh (TagNode.mk k d a cs rc ri)
        (self_mem_subnodes (TagNode.mk k d a cs rc ri))
      simpa [TagNode.resourceIds] using this
    have hxcases : x = TagNode.mk k d a (countChildren res cs)
        (countIds res
          (collectAllTagsInNode (TagNode.mk k d a (countChildren res cs) 0 []))
          ri).length
        (countIds res
          (collectAllTagsInNode (TagNode.mk k d a (countChildren res cs) 0 []))
          ri) ∨
        x ∈ subnodesList (countChildren res cs) := by
      simpa [countResourcesInNode, subnodes, List.mem_cons] using hx
    rcases hxcases with rfl | hx2
    · refine ⟨?_, rfl, ?_⟩
      · intro id
        rw [TagNode.resourceIds, hri, mem_countIds]
        simp only [List.not_mem_nil, false_or]
        rfl
      · rw [TagNode.resourceIds, hri]
        exact nodup_countIds res [] List.nodup_nil
    · obtain ⟨c2, hc2, hxc2⟩ := mem_subnodesList.1 hx2
      rw [countChildren_eq_map] at hc2
      obtain ⟨c, hc, rfl⟩ := List.mem_map.1 hc2
      refine hI c hc ?_ x hxc2
      intro m hm
      exact hfresh m (mem_subnodes_of_child
        (by simpa [TagNode.children] using hc) hm)

theorem mem_buildChildren {x : TagNode} :
    ∀ {l : List (Str × TagNodeConfig)},
      x ∈ buildChildren l ↔
        ∃ p ∈ l, x = buildTagNodeFromConfig p.1 p.2 := by
  intro l
  induction l with
  | nil => simp [buildChildren]
  | cons p rest ih =>
    obtain ⟨k, c⟩ := p
    simp only [buildChildren, List.mem_cons, ih]
    constructor
    · rintro (rfl | ⟨p2, hp2, hx⟩)
      · exact ⟨(k, c), Or.inl rfl, rfl⟩
      · exact ⟨p2, Or.inr hp2, hx⟩
    · rintro ⟨p2, hp2 | hp2, hx⟩
      · subst hp2; exact Or.inl hx
      · exact Or.inr ⟨p2, hp2, hx⟩

theorem built_fresh : ∀ (c : TagNodeConfig) (k : Str),
    ∀ m ∈ subnodes (buildTagNodeFromConfig k c), m.resourceIds = [] := by
  intro c
  induction c using tagConfigInd with
  | ih d a cs hI =>
    intro k m hm
    have hmc : m = TagNode.mk k d (a.map normalizeTag) (buildChildren cs) 0 [] ∨
        m ∈ subnodesList (buildChildren cs) := by
      simpa [buildTagNodeFromConfig, subnodes, List.mem_cons] using hm
    rcases hmc with rfl | hm2
    · rfl
    · obtain ⟨x, hx, hmx⟩ := mem_subnodesList.1 hm2
      obtain ⟨p, hp, rfl⟩ := mem_buildChildren.1 hx
      exact hI p hp p.1 m hmx

theorem built_aliases_norm : ∀ (c : TagNodeConfig) (k : Str),
    ∀ m ∈ subnodes (buildTagNodeFromConfig k c),
      ∀ a2 ∈ m.aliases, normalizeTag a2 = a2 := by
  intro c
  induction c using tagConfigInd with
  | ih d a cs hI =>
    intro k m hm a2 ha2
    have hmc : m = TagNode.mk k d (a.map normalizeTag) (buildChildren cs) 0 [] ∨
        m ∈ subnodesList (buildChildren cs) := by
      simpa [buildTagNodeFromConfig, subnodes, List.mem_cons] using hm
    rcases hmc with rfl | hm2
    · simp only [TagNode.aliases] at ha2
      obtain ⟨y, _, rfl⟩ := List.mem_map.1 ha2
      exact normalizeTag_idem y
    · obtain ⟨x, hx, hmx⟩ := mem_subnodesList.1 hm2
      obtain ⟨p, hp, rfl⟩ := mem_buildChildren.1 hx
      exact hI p hp p.1 m hmx a2 ha2

theorem subnodes_count_shape (res : List Resource) :
    ∀ n : TagNode, ∀ x ∈ subnodes (countResourcesInNode res n),
      ∃ m ∈ subnodes n, x.key = m.key ∧ x.aliases = m.aliases := by
  intro n
  induction n using tagNodeInd with
  | ih k d a cs rc ri hI =>
    intro x hx
    have hxcases : x = countResourcesInNode res (TagNode.mk k d a cs rc ri) ∨
        x ∈ subnodesList (countChildren res cs) := by
      simpa [countResourcesInNode, subnodes, List.mem_cons] using hx
    rcases hxcases with rfl | hx2
    · exact ⟨TagNode.mk k d a cs rc ri,
        self_mem_subnodes (TagNode.mk k d a cs rc ri), rfl, rfl⟩
    · obtain ⟨c2, hc2, hxc2⟩ := mem_subnodesList.1 hx2
      rw [countChildren_eq_map] at hc2
      obtain ⟨c, hc, rfl⟩ := List.mem_map.1 hc2
      obtain ⟨m, hm, he⟩ := hI c hc x hxc2
      exact ⟨m, mem_subnodes_of_child
        (by simpa [TagNode.children] using hc) hm, he⟩

theorem hierarchy_node_spec (config : TagHierarchyConfig)
    (resources : List Resource) (root : TagNode) (n : TagNode)
    (hroot : root ∈ (buildTagHierarchy config resources).roots)
    (hn : n ∈ subnodes root) :
    (∀ id, id ∈ n.resourceIds ↔
      ∃ r ∈ resources, r.id = id ∧ ∃ t ∈ r.tags,
        normalizeTag t ∈ collectAllTagsInNode n) ∧
    n.resourceCount = n.resourceIds.length ∧
    n.resourceIds.Nodup := by
  have hroots : (buildTagHierarchy config resources).roots =
      countChildren resources (buildChildren config.hierarchy) := rfl
  rw [hroots, countChildren_eq_map] at hroot
  obtain ⟨root0, hr0, rfl⟩ := List.mem_map.1 hroot
  obtain ⟨p, hp, rfl⟩ := mem_buildChildren.1 hr0
  exact count_spec resources (buildTagNodeFromConfig p.1 p.2)
    (built_fresh p.2 p.1) n hn

theorem collect_mono_child {c n : TagNode} (hc : c ∈ n.children) {v : Str}
    (hv : v ∈ collectAllTagsInNode c) : v ∈ collectAllTagsInNode n := by
  cases n with
  | mk k d a cs rc ri =>
    simp only [TagNode.children] at hc
    simp only [collectAllTagsInNode, List.mem_cons, List.mem_append,
      mem_collectTagsList]
    exact Or.inr (Or.inr ⟨c, hc, hv⟩)

theorem nodup_subset_length {l1 l2 : List Str} (h1 : l1.Nodup)
    (h2 : l1 ⊆ l2) : l1.length ≤ l2.length := by
  have h3 : l1.toFinset.card = l1.length := List.toFinset_card_of_nodup h1
  have h4 : l1.toFinset ⊆ l2.toFinset := by
    intro x hx
    simp only [List.mem_toFinset] at *
    exact h2 hx
  calc l1.length = l1.toFinset.card := h3.symm
    _ ≤ l2.toFinset.card := Finset.card_le_card h4
    _ ≤ l2.length := l2.toFinset_card_le

/-! ### Lookup-map key lemmas -/

theorem keys_mapSet {m : List (Str × TagNode)} {k k' : Str} {v : TagNode}
    (h : k' ∈ (mapSet m k v).map Prod.fst) :
    k' ∈ m.map Prod.fst ∨ k' = k := by
  unfold mapSet at h
  by_cases hany : (m.any fun p => decide (p.1 = k)) = true
  · rw [if_pos hany, List.map_map] at h
    have hmm : m.map (Prod.fst ∘ fun p => if p.1 = k then (p.1, v) else p) =
        m.map Prod.fst := by
      apply List.map_congr_left
      intro p _
      by_cases hp : p.1 = k <;> simp [hp]
    rw [hmm] at h
    exact Or.inl h
  · rw [if_neg hany, List.map_append] at h
    rcases List.mem_append.1 h with h1 | h1
    · exact Or.inl h1
    · right
      simpa using h1

theorem keys_foldSet {aliases : List Str} {n : TagNode} :
    ∀ {m : List (Str × TagNode)} {k' : Str},
      k' ∈ ((aliases.foldl (fun acc a2 => mapSet acc a2 n) m).map Prod.fst) →
      k' ∈ m.map Prod.fst ∨ k' ∈ aliases := by
  induction aliases with
  | nil => intro m k' h; exact Or.inl h
  | cons a rest ih =>
    intro m k' h
    simp only [List.foldl_cons] at h
    rcases ih h with h1 | h1
    · rcases keys_mapSet h1 with h2 | h2
      · exact Or.inl h2
      · exact Or.inr (by simp [h2])
    · exact Or.inr (List.mem_cons_of_mem a h1)

theorem keys_addNodeList_param {cs : List TagNode}
    (H : ∀ c ∈ cs, ∀ (m : List (Str × TagNode)) (k' : Str),
      k' ∈ (addNode c m).map Prod.fst →
      k' ∈ m.map Prod.fst ∨ ∃ x ∈ subnodes c,
        k' = normalizeTag x.key ∨ k' ∈ x.aliases) :
    ∀ (m : List (Str × TagNode)) (k' : Str),
      k' ∈ (addNodeList cs m).map Prod.fst →
      k' ∈ m.map Prod.fst ∨ ∃ c ∈ cs, ∃ x ∈ subnodes c,
        k' = normalizeTag x.key ∨ k' ∈ x.aliases := by
  induction cs with
  | nil =>
    intro m k' h
    exact Or.inl (by simpa [addNodeList] using h)
  | cons c rest ih =>
    intro m k' h
    have h2 : k' ∈ (addNodeList rest (addNode c m)).map Prod.fst := by
      simpa [addNodeList] using h
    rcases ih (fun c' hc' => H c' (List.mem_cons_of_mem c hc'))
        (addNode c m) k' h2 with h3 | h3
    · rcases H c (List.mem_cons_self c rest) m k' h3 with h4 | h4
      · exact Or.inl h4
      · exact Or.inr ⟨c, List.mem_cons_self c rest, h4⟩
    · obtain ⟨c', hc', hx⟩ := h3
      exact Or.inr ⟨c', List.mem_cons_of_mem c hc', hx⟩

theorem keys_addNode : ∀ (n : TagNode) (m : List (Str × TagNode)) (k' : Str),
    k' ∈ (addNode n m).map Prod.fst →
    k' ∈ m.map Prod.fst ∨ ∃ x ∈ subnodes n,
      k' = normalizeTag x.key ∨ k' ∈ x.aliases := by
  intro n
  induction n using tagNodeInd with
  | ih k d a cs rc ri hI =>
    intro m k' h
    have h2 : k' ∈ (addNodeList cs
        (a.foldl
          (fun acc a2 => mapSet acc a2 (TagNode.mk k d a cs rc ri))
          (mapSet m (normalizeTag k) (TagNode.mk k d a cs rc ri)))).map
        Prod.fst := by
      simpa [addNode] using h
    rcases keys_addNodeList_param hI _ k' h2 with h3 | h3
    · rcases keys_foldSet h3 with h4 | h4
      · rcases keys_mapSet h4 with h5 | h5
        · exact Or.inl h5
        · exact Or.inr ⟨TagNode.mk k d a cs rc ri,
            self_mem_subnodes _, Or.inl (by simpa [TagNode.key] using h5)⟩
      · exact Or.inr ⟨TagNode.mk k d a cs rc ri,
          self_mem_subnodes _, Or.inr (by simpa [TagNode.aliases] using h4)⟩
    · obtain ⟨c, hc, x, hx, he⟩ := h3
      exact Or.inr ⟨x, mem_subnodes_of_child
        (by simpa [TagNode.children] using hc) hx, he⟩

/-! ### Retry-loop lemmas -/

namespace Sync

theorem fetchWithRetry_immediate (fetchF : Nat → Response)
    (attempt retries : Nat) (h : ¬(fetchF attempt).status = 429) :
    fetchWithRetry fetchF attempt retries =
      { response := fetchF attempt, fetchCount := 1, waits := [] } := by
  cases retries with
  | zero => rfl
  | succ n => simp [fetchWithRetry, h]

theorem fetch_count_pos (fetchF : Nat → Response) :
    ∀ (retries attempt : Nat),
      1 ≤ (fetchWithRetry fetchF attempt retries).fetchCount := by
  intro retries
  induction retries with
  | zero => intro attempt; simp [fetchWithRetry]
  | succ n ih =>
    intro attempt
    by_cases h : (fetchF attempt).status = 429 <;> simp [fetchWithRetry, h]

theorem fetch_count_le (fetchF : Nat → Response) :
    ∀ (retries attempt : Nat),
      (fetchWithRetry fetchF attempt retries).fetchCount ≤ retries + 1 := by
  intro retries
  induction retries with
  | zero => intro attempt; simp [fetchWithRetry]
  | succ n ih =>
    intro attempt
    by_cases h : (fetchF attempt).status = 429
    · simp only [fetchWithRetry, h, if_true]
      have := ih (attempt + 1)
      omega
    · simp [fetchWithRetry, h]

theorem fetch_response_eq (fetchF : Nat → Response) :
    ∀ (retries attempt : Nat),
      (fetchWithRetry fetchF attempt retries).response =
        fetchF (attempt + ((fetchWithRetry fetchF attempt retries).fetchCount - 1)) := by
  intro retries
  induction retries with
  | zero => intro attempt; simp [fetchWithRetry]
  | succ n ih =>
    intro attempt
    by_cases h : (fetchF attempt).status = 429
    · simp only [fetchWithRetry, h, if_true]
      have hpos := fetch_count_pos fetchF n (attempt + 1)
      have harith :
          attempt + 1 + ((fetchWithRetry fetchF (attempt + 1) n).fetchCount - 1) =
          attempt + ((fetchWithRetry fetchF (attempt + 1) n).fetchCount + 1 - 1) := by
        omega
      rw [ih (attempt + 1), harith]
    · simp [fetchWithRetry, h]

theorem fetch_pre429 (fetchF : Nat → Response) :
    ∀ (retries attempt i : Nat),
      i + 1 < (fetchWithRetry fetchF attempt retries).fetchCount →
      (fetchF (attempt + i)).status = 429 := by
  intro retries
  induction retries with
  | zero =>
    intro attempt i hi
    simp [fetchWithRetry] at hi
  | succ n ih =>
    intro attempt i hi
    by_cases h : (fetchF attempt).status = 429
    · simp only [fetchWithRetry, h, if_true] at hi
      cases i with
      | zero => simpa using h
      | succ j =>
        have hj : j + 1 < (fetchWithRetry fetchF (attempt + 1) n).fetchCount := by
          omega
        have := ih (attempt + 1) j hj
        have harith : attempt + 1 + j = attempt + (j + 1) := by omega
        rwa [harith] at this
    · rw [fetchWithRetry_immediate fetchF attempt (n + 1) h] at hi
      simp at hi

theorem fetch_final429 (fetchF : Nat → Response) :
    ∀ (retries attempt : Nat),
      (fetchWithRetry fetchF attempt retries).response.status = 429 →
      (fetchWithRetry fetchF attempt retries).fetchCount = retries + 1 := by
  intro retries
  induction retries with
  | zero => intro attempt _; simp [fetchWithRetry]
  | succ n ih =>
    intro attempt hst
    by_cases h : (fetchF attempt).status = 429
    · simp only [fetchWithRetry, h, if_true] at hst ⊢
      rw [ih (attempt + 1) hst]
    · rw [fetchWithRetry_immediate fetchF attempt (n + 1) h] at hst
      exact absurd hst h

theorem fetch_waits (fetchF : Nat → Response) :
    ∀ (retries attempt : Nat),
      (fetchWithRetry fetchF attempt retries).waits =
        (List.range ((fetchWithRetry fetchF attempt retries).fetchCount - 1)).map
          (fun i => waitMsOf (fetchF (attempt + i))) := by
  intro retries
  induction retries with
  | zero => intro attempt; simp [fetchWithRetry]
  | succ n ih =>
    intro attempt
    by_cases h : (fetchF attempt).status = 429
    · simp only [fetchWithRetry, h, if_true]
      have hpos := fetch_count_pos fetchF n (attempt + 1)
      obtain ⟨m, hm⟩ :
          ∃ m, (fetchWithRetry fetchF (attempt + 1) n).fetchCount = m + 1 :=
        ⟨(fetchWithRetry fetchF (attempt + 1) n).fetchCount - 1, by omega⟩
      rw [ih (attempt + 1), hm]
      simp only [Nat.add_sub_cancel, List.range_succ_eq_map, List.map_cons,
        List.map_map, Nat.add_zero]
      refine congrArg₂ List.cons rfl ?_
      apply List.map_congr_left
      intro i _
      simp only [Function.comp]
      have harith : attempt + (i + 1) = attempt + 1 + i := by omega
      rw [harith]
    · simp [fetchWithRetry, h]

theorem digit_not_space {c : Char} (h : isDigit c = true) :
    isSpace c = false := by
  cases hx : isSpace c
  · rfl
  · exfalso
    simp only [isSpace, Bool.or_eq_true, decide_eq_true_eq] at hx
    rcases hx with ((((h1 | h1) | h1) | h1) | h1) | h1 <;> subst h1 <;>
      exact absurd h (by decide)

theorem takeWhile_eq_self_of_all {p : Char → Bool} {l : Str}
    (h : ∀ c ∈ l, p c = true) : l.takeWhile p = l := by
  induction l with
  | nil => rfl
  | cons c cs ih =>
    rw [List.takeWhile_cons, h c (List.mem_cons_self c cs)]
    simp only [if_true]
    rw [ih (fun x hx => h x (List.mem_cons_of_mem c hx))]

theorem parseIntJs_digits {hdr : Str} (hne : hdr ≠ [])
    (hd : ∀ c ∈ hdr, isDigit c = true) :
    parseIntJs hdr = some ((digitsToNat hdr : Nat) : Int) := by
  obtain ⟨c, rest, rfl⟩ : ∃ c rest, hdr = c :: rest := by
    cases hdr with
    | nil => exact absurd rfl hne
    | cons c rest => exact ⟨c, rest, rfl⟩
  have hc : isDigit c = true := hd c (List.mem_cons_self c rest)
  have hdrop : (c :: rest).dropWhile isSpace = c :: rest :=
    dropWhile_eq_self_of_no (fun x hx => digit_not_space (hd x hx))
  have hcm : ¬c = '-' := by intro hcm; subst hcm; exact absurd hc (by decide)
  have hcp : ¬c = '+' := by intro hcp; subst hcp; exact absurd hc (by decide)
  have htake : (c :: rest).takeWhile isDigit = c :: rest :=
    takeWhile_eq_self_of_all hd
  simp only [parseIntJs, hdrop, if_neg hcm, if_neg hcp, parseDigits, htake]
  simp

theorem waitMsOf_header_absent {r : Response} (h : r.retryAfter = none) :
    waitMsOf r = 60000 := by
  simp [waitMsOf, h]

theorem waitMsOf_header_digits {r : Response} {hdr : Str}
    (h : r.retryAfter = some hdr) (hne : hdr ≠ [])
    (hd : ∀ c ∈ hdr, isDigit c = true) :
    waitMsOf r = ((digitsToNat hdr : Nat) : Int) * 1000 := by
  simp [waitMsOf, h, hne, parseIntJs_digits hne hd]

end Sync

/-! ### Pagination lemmas -/

theorem chunks_flatten {α : Type} (k : Nat) :
    ∀ (n : Nat) (l : List α), l.length ≤ n * k →
      ((List.range n).map (fun p => (l.drop (p * k)).take k)).flatten = l := by
  intro n
  induction n with
  | zero =>
    intro l hl
    have : l = [] := List.eq_nil_of_length_eq_zero (by omega)
    simp [this]
  | succ m ih =>
    intro l hl
    rw [List.range_succ_eq_map, List.map_cons, List.map_map]
    simp only [List.flatten_cons, Nat.zero_mul, List.drop_zero]
    have hexp : (m + 1) * k = m * k + k := by ring
    have hmap :
        (List.range m).map ((fun p => (l.drop (p * k)).take k) ∘ Nat.succ) =
        (List.range m).map (fun p => ((l.drop k).drop (p * k)).take k) := by
      apply List.map_congr_left
      intro i _
      simp only [Function.comp]
      rw [List.drop_drop]
      have harith : k + i * k = Nat.succ i * k := by
        rw [Nat.succ_eq_add_one]
        ring
      rw [harith]
    rw [hmap, ih (l.drop k) (by simp only [List.length_drop]; omega)]
    exact List.take_append_drop k l

/-! ### Upsert lemmas -/

namespace Db

theorem upsert_eq_map (db : List Row) (r : Resource)
    (hany : (db.any fun x => decide (x.id = r.id)) = true) :
    upsertResource db r =
      db.map (fun row =>
        if row.id = r.id then mergeRow row (bindRow r) else row) := by
  unfold upsertResource
  rw [if_pos hany]

theorem findRow_upsert (db : List Row) (r : Resource) (old : Row)
    (h : findRow db r.id = some old) :
    findRow (upsertResource db r) r.id =
      some (mergeRow old (bindRow r)) := by
  induction db with
  | nil => simp [findRow] at h
  | cons row rest ih =>
    by_cases hid : row.id = r.id
    · have hold : old = row := by
        unfold findRow at h
        rw [List.find?_cons_of_pos _ (by simp [hid])] at h
        exact (Option.some_inj.1 h).symm
      have hany : ((row :: rest).any fun x => decide (x.id = r.id)) = true := by
        simp only [List.any_cons, Bool.or_eq_true, decide_eq_true_eq]
        exact Or.inl hid
      rw [hold, upsert_eq_map _ _ hany]
      simp only [List.map_cons, if_pos hid]
      unfold findRow
      rw [List.find?_cons_of_pos _ (by simp [mergeRow, hid])]
    · have h' : findRow rest r.id = some old := by
        unfold findRow at h
        rwa [List.find?_cons_of_neg _ (by simp [hid])] at h
      have hmem := List.mem_of_find?_eq_some h'
      have hpold : old.id = r.id := by
        have := List.find?_some h'
        simpa using this
      have hany : (rest.any fun x => decide (x.id = r.id)) = true := by
        rw [List.any_eq_true]
        exact ⟨old, hmem, by simp [hpold]⟩
      have hany2 : ((row :: rest).any fun x => decide (x.id = r.id)) = true := by
        simp [List.any_cons, hany]
      have ihh := ih h'
      rw [upsert_eq_map _ _ hany] at ihh
      rw [upsert_eq_map _ _ hany2]
      simp only [List.map_cons, if_neg hid]
      unfold findRow at ihh ⊢
      rw [List.find?_cons_of_neg _ (by simp [hid])]
      exact ihh

end Db

/-! ### Stats lemmas -/

theorem filter_partition_source (l : List Resource) :
    (l.filter (fun r => decide (r.source = ResourceSource.readwise))).length +
      (l.filter (fun r => decide (r.source = ResourceSource.zotero))).length =
      l.length := by
  induction l with
  | nil => rfl
  | cons a t ih =>
    cases hs : a.source <;>
      simp only [List.filter_cons, hs, List.length_cons] <;>
      simp <;> omega

theorem map_bump_id {m : List (ResourceType × Nat)} {t : ResourceType}
    (h : ∀ q ∈ m, ¬q.1 = t) :
    m.map (fun p => if p.1 = t then (p.1, p.2 + 1) else p) = m := by
  induction m with
  | nil => rfl
  | cons a l ih =>
    simp only [List.map_cons]
    rw [if_neg (h a (List.mem_cons_self a l)),
      ih (fun q hq => h q (List.mem_cons_of_mem a hq))]

theorem bumpType_keys {m : List (ResourceType × Nat)} {t : ResourceType} :
    ((bumpType m t).map Prod.fst = m.map Prod.fst ∧
      m.any (fun p => decide (p.1 = t)) = true) ∨
    ((bumpType m t).map Prod.fst = m.map Prod.fst ++ [t] ∧
      ¬t ∈ m.map Prod.fst) := by
  unfold bumpType
  by_cases hany : m.any (fun p => decide (p.1 = t)) = true
  · left
    rw [if_pos hany]
    refine ⟨?_, hany⟩
    rw [List.map_map]
    apply List.map_congr_left
    intro p _
    by_cases hp : p.1 = t <;> simp [hp]
  · right
    rw [if_neg hany]
    refine ⟨by simp, ?_⟩
    intro hmem
    obtain ⟨p, hpm, hpe⟩ := List.mem_map.1 hmem
    apply hany
    rw [List.any_eq_true]
    exact ⟨p, hpm, by simp [hpe]⟩

theorem bumpType_keys_nodup {m : List (ResourceType × Nat)}
    {t : ResourceType} (hnd : (m.map Prod.fst).Nodup) :
    ((bumpType m t).map Prod.fst).Nodup := by
  rcases bumpType_keys (m := m) (t := t) with ⟨heq, _⟩ | ⟨heq, hnm⟩
  · rwa [heq]
  · rw [heq]
    refine List.Nodup.append hnd (List.nodup_singleton t) ?_
    intro x hx hx2
    simp only [List.mem_singleton] at hx2
    subst hx2
    exact hnm hx

theorem sum_map_bump {l : List (ResourceType × Nat)} {t : ResourceType}
    (hnd : (l.map Prod.fst).Nodup)
    (hany : (l.any fun p => decide (p.1 = t)) = true) :
    ((l.map (fun p => if p.1 = t then (p.1, p.2 + 1) else p)).map
        Prod.snd).sum =
      (l.map Prod.snd).sum + 1 := by
  induction l with
  | nil => simp at hany
  | cons a rest ih =>
    have hnd' : (a.1 :: rest.map Prod.fst).Nodup := by
      rw [List.map_cons] at hnd
      exact hnd
    have hnc := List.nodup_cons.1 hnd'
    by_cases ha : a.1 = t
    · have hnot : ∀ q ∈ rest, ¬q.1 = t := by
        intro q hq hqeq
        have hmem : a.1 ∈ rest.map Prod.fst :=
          List.mem_map.2 ⟨q, hq, by rw [hqeq, ha]⟩
        exact hnc.1 hmem
      simp only [List.map_cons, if_pos ha, map_bump_id hnot, List.sum_cons]
      omega
    · have hany' : (rest.any fun p => decide (p.1 = t)) = true := by
        cases hab : (rest.any fun p => decide (p.1 = t)) with
        | true => rfl
        | false =>
          exfalso
          rw [List.any_cons, hab] at hany
          simp only [Bool.or_false, decide_eq_true_eq] at hany
          exact ha hany
      have := ih hnc.2 hany'
      simp only [List.map_cons, if_neg ha, List.sum_cons]
      omega

theorem bumpType_sum {m : List (ResourceType × Nat)} {t : ResourceType}
    (hnd : (m.map Prod.fst).Nodup) :
    ((bumpType m t).map Prod.snd).sum = (m.map Prod.snd).sum + 1 := by
  unfold bumpType
  by_cases hany : (m.any fun p => decide (p.1 = t)) = true
  · rw [if_pos hany]
    exact sum_map_bump hnd hany
  · rw [if_neg hany]
    simp

theorem typeCounts_spec (l : List Resource) :
    ∀ (m : List (ResourceType × Nat)), (m.map Prod.fst).Nodup →
      ((l.foldl (fun acc r => bumpType acc r.type) m).map Prod.snd).sum =
        (m.map Prod.snd).sum + l.length ∧
      ((l.foldl (fun acc r => bumpType acc r.type) m).map Prod.fst).Nodup := by
  induction l with
  | nil => intro m h; simpa using h
  | cons a t ih =>
    intro m h
    simp only [List.foldl_cons]
    obtain ⟨h1, h2⟩ := ih (bumpType m a.type) (bumpType_keys_nodup h)
    refine ⟨?_, h2⟩
    rw [h1, bumpType_sum h]
    simp only [List.length_cons]
    omega

/-! ### Claim theorems -/

/-- C7: `fetchWithRetry` terminates: it is a total function of its retry
budget — for every fetch oracle, starting attempt index and initial budget
it performs at most `retries + 1` fetches (each recursive call strictly
decreases the non-negative budget) and returns the response of the last
fetch it performed, so there is no unbounded retry on persistent 429
responses. -/
theorem fetchWithRetry_terminates (fetchF : Nat → Sync.Response)
    (attempt retries : Nat) :
    1 ≤ (Sync.fetchWithRetry fetchF attempt retries).fetchCount ∧
    (Sync.fetchWithRetry fetchF attempt retries).fetchCount ≤ retries + 1 ∧
    (Sync.fetchWithRetry fetchF attempt retries).response =
      fetchF (attempt +
        ((Sync.fetchWithRetry fetchF attempt retries).fetchCount - 1)) :=
  ⟨Sync.fetch_count_pos fetchF retries attempt,
   Sync.fetch_count_le fetchF retries attempt,
   Sync.fetch_response_eq fetchF retries attempt⟩

/-- C3: bounded retry on rate limit.  With the default budget
`MAX_RETRIES = 3`, `fetchWithRetry` performs at most `MAX_RETRIES` retries
(at most `MAX_RETRIES + 1` fetches); every fetch before the last returned
status 429 (a request is re-issued exactly when the status is 429 and
budget remains); the returned response is the last fetch's response; a 429
is returned only once the budget is exhausted; a first non-429 response is
returned immediately with no waiting; and each wait between attempts is
`Retry-After * 1000` ms when that header holds a (decimal) number of
seconds, and 60000 ms when the header is absent. -/
theorem fetchWithRetry_bounded_retry (fetchF : Nat → Sync.Response) :
    ((Sync.fetchWithRetry fetchF 0 Sync.MAX_RETRIES).fetchCount ≤
      Sync.MAX_RETRIES + 1) ∧
    (∀ i, i + 1 < (Sync.fetchWithRetry fetchF 0 Sync.MAX_RETRIES).fetchCount →
      (fetchF i).status = 429) ∧
    ((Sync.fetchWithRetry fetchF 0 Sync.MAX_RETRIES).response =
      fetchF ((Sync.fetchWithRetry fetchF 0 Sync.MAX_RETRIES).fetchCount - 1)) ∧
    ((Sync.fetchWithRetry fetchF 0 Sync.MAX_RETRIES).response.status = 429 →
      (Sync.fetchWithRetry fetchF 0 Sync.MAX_RETRIES).fetchCount =
        Sync.MAX_RETRIES + 1) ∧
    (¬(fetchF 0).status = 429 →
      Sync.fetchWithRetry fetchF 0 Sync.MAX_RETRIES =
        { response := fetchF 0, fetchCount := 1, waits := [] }) ∧
    ((Sync.fetchWithRetry fetchF 0 Sync.MAX_RETRIES).waits =
      (List.range
        ((Sync.fetchWithRetry fetchF 0 Sync.MAX_RETRIES).fetchCount - 1)).map
        (fun i => Sync.waitMsOf (fetchF i))) ∧
    (∀ r : Sync.Response,
      (r.retryAfter = none → Sync.waitMsOf r = 60000) ∧
      (∀ hdr : Str, r.retryAfter = some hdr → hdr ≠ [] →
        (∀ c ∈ hdr, Sync.isDigit c = true) →
        Sync.waitMsOf r = ((Sync.digitsToNat hdr : Nat) : Int) * 1000)) := by
  refine ⟨Sync.fetch_count_le fetchF Sync.MAX_RETRIES 0, ?_, ?_, ?_, ?_, ?_, ?_⟩
  · intro i hi
    have := Sync.fetch_pre429 fetchF Sync.MAX_RETRIES 0 i hi
    simpa using this
  · have := Sync.fetch_response_eq fetchF Sync.MAX_RETRIES 0
    simpa using this
  · exact Sync.fetch_final429 fetchF Sync.MAX_RETRIES 0
  · intro h
    exact Sync.fetchWithRetry_immediate fetchF 0 Sync.MAX_RETRIES h
  · have := Sync.fetch_waits fetchF Sync.MAX_RETRIES 0
    simpa using this
  · intro r
    exact ⟨fun h => Sync.waitMsOf_header_absent h,
      fun hdr h hne hd => Sync.waitMsOf_header_digits h hne hd⟩

/-- Witness for the bounded-retry claim: an oracle that answers 429 with a
`Retry-After: 5` header once and then succeeds. -/
theorem fetchWithRetry_bounded_retry_witness :
    (Sync.fetchWithRetry
        (fun n => if n = 0 then
            { status := 429, retryAfter := some ['5'] }
          else { status := 200, retryAfter := none })
        0 Sync.MAX_RETRIES).fetchCount ≤ Sync.MAX_RETRIES + 1 ∧
    Sync.waitMsOf { status := 429, retryAfter := some ['5'] } =
      ((Sync.digitsToNat ['5'] : Nat) : Int) * 1000 ∧
    Sync.waitMsOf { status := 429, retryAfter := none } = 60000 := by
  have h := fetchWithRetry_bounded_retry
    (fun n => if n = 0 then
        { status := 429, retryAfter := some ['5'] }
      else { status := 200, retryAfter := none })
  refine ⟨h.1, ?_, ?_⟩
  · exact (h.2.2.2.2.2.2 { status := 429, retryAfter := some ['5'] }).2
      ['5'] rfl (by decide) (by decide)
  · exact (h.2.2.2.2.2.2 { status := 429, retryAfter := none }).1 rfl

/-- C5: sorting is a non-mutating permutation with descending as the
reverse of ascending: for every date valuation, locale comparator, list and
sort key, both sort orders of `sortResources` return permutations of the
input and the descending result is the element-wise reverse of the
ascending one; the same holds for `sortBooks`.  (Non-mutation of the input
is inherent: the source sorts a copy `[...resources]`, modeled by the pure
function returning a new list.) -/
theorem sort_perm_and_reverse :
    (∀ (getTime : Str → Int) (lc : Str → Str → Int)
      (resources : List Resource) (s : SortBy),
      (sortResources getTime lc resources s SortOrder.asc).Perm resources ∧
      (sortResources getTime lc resources s SortOrder.desc).Perm resources ∧
      sortResources getTime lc resources s SortOrder.desc =
        (sortResources getTime lc resources s SortOrder.asc).reverse) ∧
    (∀ (lc : Str → Str → Int) (books : List Books.BookDisplay)
      (s : Books.SortBy),
      (Books.sortBooks lc books s SortOrder.asc).Perm books ∧
      (Books.sortBooks lc books s SortOrder.desc).Perm books ∧
      Books.sortBooks lc books s SortOrder.desc =
        (Books.sortBooks lc books s SortOrder.asc).reverse) := by
  constructor
  · intro getTime lc resources s
    refine ⟨List.mergeSort_perm resources _, ?_, rfl⟩
    exact (List.reverse_perm _).trans (List.mergeSort_perm resources _)
  · intro lc books s
    refine ⟨List.mergeSort_perm books _, ?_, rfl⟩
    exact (List.reverse_perm _).trans (List.mergeSort_perm books _)

/-- C6: neutral filters are identities: a blank (empty or all-whitespace)
query makes `searchResources` return its input unchanged, as do
`filterBySource "all"`, `filterByType "all"` and `filterByTagNode` with a
`null` tag key; and each of these functions always returns an
order-preserving sublist of its input. -/
theorem neutral_filters_identity (resources : List Resource) (q : Str)
    (s : ResourceSource) (t : ResourceType) (hier : TagHierarchy) (k : Str) :
    (trimStr q = [] → searchResources resources q = resources) ∧
    filterBySource resources SourceFilter.all = resources ∧
    filterByType resources TypeFilter.all = resources ∧
    filterByTagNode resources hier none = resources ∧
    (searchResources resources q).Sublist resources ∧
    (filterBySource resources (SourceFilter.src s)).Sublist resources ∧
    (filterByType resources (TypeFilter.ty t)).Sublist resources ∧
    (filterByTagNode resources hier (some k)).Sublist resources := by
  refine ⟨?_, rfl, rfl, rfl, ?_, List.filter_sublist _, List.filter_sublist _,
    ?_⟩
  · intro h
    simp [searchResources, h]
  · unfold searchResources
    split
    · exact List.Sublist.refl _
    · exact List.filter_sublist _
  · unfold filterByTagNode
    by_cases hk : k = []
    · simp only [if_pos hk]
      exact List.Sublist.refl _
    · simp only [if_neg hk]
      cases hmg : mapGet hier.tagToNode (normalizeTag k) with
      | none => exact List.Sublist.refl _
      | some node => exact List.filter_sublist _

/-- Witness for the neutral-filter identities on a concrete state: a
whitespace query and an empty hierarchy. -/
theorem neutral_filters_identity_witness :
    searchResources [] [' '] = [] ∧
    filterBySource [] SourceFilter.all = [] ∧
    (filterByTagNode [] (TagHierarchy.mk [] [] [] 0) (some ['c'])).Sublist [] := by
  have h := neutral_filters_identity [] [' '] ResourceSource.readwise
    ResourceType.article (TagHierarchy.mk [] [] [] 0) ['c']
  exact ⟨h.1 (by decide), h.2.1, h.2.2.2.2.2.2.2⟩

/-- C4: the explorer pipeline is filter → sort → paginate: for every locale
comparator, book list, search string, shelf filter, decade selection,
recommender selection, sort key, order and page number, the page displayed
by `BookExplorer` equals
`sortBooks(filterByRecommender(filterByDecades(filterByShelf(searchBooks(books, search), shelf), decades), rec), sortBy, order).slice(p * 25, p * 25 + 25)`;
each page has at most `PAGE_SIZE = 25` records; and the concatenation of
the pages `0 .. totalPages - 1` is the whole filtered, sorted list. -/
theorem explorer_pipeline_order (lc : Str → Str → Int)
    (books : List Books.BookDisplay) (search : Str)
    (shelf : Books.ShelfFilter) (decades : List Str) (rec : Option Str)
    (s : Books.SortBy) (o : SortOrder) (p : Nat) :
    Books.paginatedBooks lc books search shelf decades rec s o p =
      ((Books.sortBooks lc
          (Books.filterByRecommender
            (Books.filterByDecades
              (Books.filterByShelf (Books.searchBooks books search) shelf)
              decades)
            rec)
          s o).drop (p * 25)).take 25 ∧
    (Books.paginatedBooks lc books search shelf decades rec s o p).length ≤
      Books.PAGE_SIZE ∧
    ((List.range (Books.totalPages lc books search shelf decades rec s o)).map
        (fun q => Books.paginatedBooks lc books search shelf decades rec s o q)).flatten =
      Books.filteredBooks lc books search shelf decades rec s o := by
  refine ⟨rfl, List.length_take_le _ _, ?_⟩
  simp only [Books.paginatedBooks, Books.totalPages, Books.PAGE_SIZE]
  apply chunks_flatten
  omega

/-- C1 counterexample: last write does not always win.  On a database whose
row `exOldRow` has id `"a"` and a stored `image_url`, upserting `exNewRes`
(same id, `image_url` absent) leaves the old `image_url` in place — the
`COALESCE(excluded.image_url, resources.image_url)` clause keeps the stored
value — so the stored row's `image_url` differs from the value supplied by
the resource. -/
theorem upsert_not_last_write_wins :
    exOldRow.id = exNewRes.id ∧
    ∃ u ∈ Db.upsertResource [exOldRow] exNewRes,
      u.id = exNewRes.id ∧ ¬u.image_url = exNewRes.image_url := by
  decide

/-- C1 (amended): after `upsertResource(db, r)` on a database containing a
row with `r`'s id, the stored row is the `ON CONFLICT` merge of the old row
with `r`'s bound values, in which `type`, `title`, `url`, `author`,
`description`, `tags`, `source`, `source_id`, `metadata` and
`platform_status` always take the supplied values (the later write
replacing the earlier one), `favorited` takes the supplied value defaulted
to 0, `image_url`, `date_published` and `rating` take the supplied value
only when it is non-null and otherwise keep the stored one, and `status`
and `queue_priority` take the supplied values only when the stored row is
not manually curated (`status_manual ≠ 1`). -/
theorem upsert_field_semantics (db : List Db.Row) (r : Db.Resource)
    (old : Db.Row) (h : Db.findRow db r.id = some old) :
    Db.findRow (Db.upsertResource db r) r.id =
      some (Db.mergeRow old (Db.bindRow r)) ∧
    (Db.mergeRow old (Db.bindRow r)).type = r.type ∧
    (Db.mergeRow old (Db.bindRow r)).title = r.title ∧
    (Db.mergeRow old (Db.bindRow r)).url = r.url ∧
    (Db.mergeRow old (Db.bindRow r)).author = r.author ∧
    (Db.mergeRow old (Db.bindRow r)).description = r.description ∧
    (Db.mergeRow old (Db.bindRow r)).tags = r.tags ∧
    (Db.mergeRow old (Db.bindRow r)).source = r.source ∧
    (Db.mergeRow old (Db.bindRow r)).source_id = r.source_id ∧
    (Db.mergeRow old (Db.bindRow r)).metadata = r.metadata ∧
    (Db.mergeRow old (Db.bindRow r)).platform_status = r.platform_status ∧
    (Db.mergeRow old (Db.bindRow r)).favorited = some (r.favorited.getD 0) ∧
    (Db.mergeRow old (Db.bindRow r)).image_url =
      (if r.image_url.isSome then r.image_url else old.image_url) ∧
    (Db.mergeRow old (Db.bindRow r)).date_published =
      (if r.date_published.isSome then r.date_published
       else old.date_published) ∧
    (Db.mergeRow old (Db.bindRow r)).rating =
      (if r.rating.isSome then r.rating else old.rating) ∧
    (Db.mergeRow old (Db.bindRow r)).status =
      (if old.status_manual = some 1 then old.status else r.status) ∧
    (Db.mergeRow old (Db.bindRow r)).queue_priority =
      (if old.status_manual = some 1 then old.queue_priority
       else r.queue_priority) := by
  refine ⟨Db.findRow_upsert db r old h, rfl, rfl, rfl, rfl, rfl, rfl, rfl,
    rfl, rfl, rfl, rfl, ?_, ?_, ?_, rfl, rfl⟩
  · cases hx : r.image_url <;> simp [Db.mergeRow, Db.bindRow, hx]
  · cases hx : r.date_published <;> simp [Db.mergeRow, Db.bindRow, hx]
  · cases hx : r.rating <;> simp [Db.mergeRow, Db.bindRow, hx]

/-- Witness for the amended upsert claim at a concrete database state. -/
theorem upsert_field_semantics_witness :
    Db.findRow (Db.upsertResource [exOldRow] exNewRes) exNewRes.id =
      some (Db.mergeRow exOldRow (Db.bindRow exNewRes)) ∧
    (Db.mergeRow exOldRow (Db.bindRow exNewRes)).title = exNewRes.title := by
  have h := upsert_field_semantics [exOldRow] exNewRes exOldRow (by decide)
  exact ⟨h.1, h.2.2.1⟩

/-- C10: library stats partition by source: `totalResources` is the sum of
`readwiseCount` and `zoteroCount` (every resource's source is one of the
two, as the `Resource` type requires), the `byType` counts sum to
`totalResources`, each resource type appears at most once in `byType`, and
`byType` is sorted by descending count. -/
theorem library_stats_partition (resources : List Resource)
    (hier : TagHierarchy) :
    (computeLibraryStats resources hier).totalResources =
      (computeLibraryStats resources hier).readwiseCount +
        (computeLibraryStats resources hier).zoteroCount ∧
    ((computeLibraryStats resources hier).byType.map Prod.snd).sum =
      (computeLibraryStats resources hier).totalResources ∧
    ((computeLibraryStats resources hier).byType.map Prod.fst).Nodup ∧
    (computeLibraryStats resources hier).byType.Pairwise
      (fun a b => b.2 ≤ a.2) := by
  have htot : (computeLibraryStats resources hier).totalResources =
      resources.length := rfl
  have hby : (computeLibraryStats resources hier).byType =
      List.mergeSort (resources.foldl (fun m r => bumpType m r.type) [])
        (fun a b => decide (b.2 ≤ a.2)) := rfl
  have hrw : (computeLibraryStats resources hier).readwiseCount =
      (resources.filter
        (fun r => decide (r.source = ResourceSource.readwise))).length := rfl
  have hzo : (computeLibraryStats resources hier).zoteroCount =
      (resources.filter
        (fun r => decide (r.source = ResourceSource.zotero))).length := rfl
  obtain ⟨hsum, hnd⟩ := typeCounts_spec resources [] (by simp)
  have hperm := List.mergeSort_perm
    (resources.foldl (fun m r => bumpType m r.type) [])
    (fun a b => decide (b.2 ≤ a.2))
  refine ⟨?_, ?_, ?_, ?_⟩
  · rw [htot, hrw, hzo]
    exact (filter_partition_source resources).symm
  · rw [hby, htot]
    rw [(List.Perm.map Prod.snd hperm).sum_eq, hsum]
    simp
  · rw [hby]
    exact ((List.Perm.map Prod.fst hperm).nodup_iff).2 hnd
  · rw [hby]
    have hs := @List.sorted_mergeSort (ResourceType × Nat)
      (fun a b => decide (b.2 ≤ a.2))
      (fun a b c hab hbc => by
        simp only [decide_eq_true_eq] at *
        omega)
      (fun a b => by
        simp only [Bool.or_eq_true, decide_eq_true_eq]
        omega)
      (resources.foldl (fun m r => bumpType m r.type) [])
    exact hs.imp (fun h => by simpa using h)

/-- C2: tag-node membership: after `buildTagHierarchy(config, resources)`,
for every node `n` of the tree an id is in `n.resourceIds` precisely when
some resource carries that id and one of its tags, after normalization,
equals the normalized key or a (normalized) alias of `n` or of one of `n`'s
descendants; and `n.resourceCount` is the number of distinct such resource
ids (`resourceIds` is duplicate-free, each resource counted at most once
per node however many of its tags match). -/
theorem tag_node_membership (config : TagHierarchyConfig)
    (resources : List Resource) (root n : TagNode) (id : Str)
    (hroot : root ∈ (buildTagHierarchy config resources).roots)
    (hn : n ∈ subnodes root) :
    (id ∈ n.resourceIds ↔
      ∃ r ∈ resources, r.id = id ∧ ∃ t ∈ r.tags, ∃ m ∈ subnodes n,
        normalizeTag t = normalizeTag m.key ∨ normalizeTag t ∈ m.aliases) ∧
    n.resourceCount = n.resourceIds.length ∧
    n.resourceIds.Nodup := by
  obtain ⟨hmem, hcnt, hnd⟩ :=
    hierarchy_node_spec config resources root n hroot hn
  refine ⟨(hmem id).trans ?_, hcnt, hnd⟩
  constructor
  · rintro ⟨r, hr, hid, t, ht, hv⟩
    exact ⟨r, hr, hid, t, ht, (mem_collectAllTags n (normalizeTag t)).1 hv⟩
  · rintro ⟨r, hr, hid, t, ht, hv⟩
    exact ⟨r, hr, hid, t, ht, (mem_collectAllTags n (normalizeTag t)).2 hv⟩

/-- Witness for the tag-node membership claim: a one-node hierarchy keyed
`cat` with alias `kitty`, and one resource tagged `Kitty`. -/
theorem tag_node_membership_witness :
    ((['x'] : Str) ∈
        (countResourcesInNode
          [{ id := ['x'], source := ResourceSource.readwise
             type := ResourceType.article, title := [], url := []
             author := none, description := none, dateAdded := []
             datePublished := none, tags := [['K', 'i', 't', 't', 'y']]
             imageUrl := none, readingProgress := none, itemType := none
             publicationTitle := none }]
          (buildTagNodeFromConfig ['c', 'a', 't']
            (TagNodeConfig.mk ['C'] [['k', 'i', 't', 't', 'y']] []))).resourceIds ↔
      ∃ r ∈ [({ id := ['x'], source := ResourceSource.readwise
                type := ResourceType.article, title := [], url := []
                author := none, description := none, dateAdded := []
                datePublished := none, tags := [['K', 'i', 't', 't', 'y']]
                imageUrl := none, readingProgress := none, itemType := none
                publicationTitle := none } : Resource)],
        r.id = ['x'] ∧ ∃ t ∈ r.tags,
          ∃ m ∈ subnodes
            (countResourcesInNode
              [{ id := ['x'], source := ResourceSource.readwise
                 type := ResourceType.article, title := [], url := []
                 author := none, description := none, dateAdded := []
                 datePublished := none, tags := [['K', 'i', 't', 't', 'y']]
                 imageUrl := none, readingProgress := none, itemType := none
                 publicationTitle := none }]
              (buildTagNodeFromConfig ['c', 'a', 't']
                (TagNodeConfig.mk ['C'] [['k', 'i', 't', 't', 'y']] []))),
            normalizeTag t = normalizeTag m.key ∨ normalizeTag t ∈ m.aliases) ∧
    (countResourcesInNode
        [{ id := ['x'], source := ResourceSource.readwise
           type := ResourceType.article, title := [], url := []
           author := none, description := none, dateAdded := []
           datePublished := none, tags := [['K', 'i', 't', 't', 'y']]
           imageUrl := none, readingProgress := none, itemType := none
           publicationTitle := none }]
        (buildTagNodeFromConfig ['c', 'a', 't']
          (TagNodeConfig.mk ['C'] [['k', 'i', 't', 't', 'y']] []))).resourceCount =
      (countResourcesInNode
        [{ id := ['x'], source := ResourceSource.readwise
           type := ResourceType.article, title := [], url := []
           author := none, description := none, dateAdded := []
           datePublished := none, tags := [['K', 'i', 't', 't', 'y']]
           imageUrl := none, readingProgress := none, itemType := none
           publicationTitle := none }]
        (buildTagNodeFromConfig ['c', 'a', 't']
          (TagNodeConfig.mk ['C'] [['k', 'i', 't', 't', 'y']] []))).resourceIds.length := by
  have h := tag_node_membership
    (TagHierarchyConfig.mk
      [(['c', 'a', 't'], TagNodeConfig.mk ['C'] [['k', 'i', 't', 't', 'y']] [])])
    [{ id := ['x'], source := ResourceSource.readwise
       type := ResourceType.article, title := [], url := []
       author := none, description := none, dateAdded := []
       datePublished := none, tags := [['K', 'i', 't', 't', 'y']]
       imageUrl := none, readingProgress := none, itemType := none
       publicationTitle := none }]
    (countResourcesInNode
      [{ id := ['x'], source := ResourceSource.readwise
         type := ResourceType.article, title := [], url := []
         author := none, description := none, dateAdded := []
         datePublished := none, tags := [['K', 'i', 't', 't', 'y']]
         imageUrl := none, readingProgress := none, itemType := none
         publicationTitle := none }]
      (buildTagNodeFromConfig ['c', 'a', 't']
        (TagNodeConfig.mk ['C'] [['k', 'i', 't', 't', 'y']] [])))
    (countResourcesInNode
      [{ id := ['x'], source := ResourceSource.readwise
         type := ResourceType.article, title := [], url := []
         author := none, description := none, dateAdded := []
         datePublished := none, tags := [['K', 'i', 't', 't', 'y']]
         imageUrl := none, readingProgress := none, itemType := none
         publicationTitle := none }]
      (buildTagNodeFromConfig ['c', 'a', 't']
        (TagNodeConfig.mk ['C'] [['k', 'i', 't', 't', 'y']] [])))
    ['x']
    (by simp [buildTagHierarchy, buildChildren, countChildren])
    (self_mem_subnodes _)
  exact ⟨h.1, h.2.1⟩

/-- C9: tag-tree counts are monotone up the tree: after
`buildTagHierarchy`, for every node `n` of the tree and every child `c` of
`n`, `c.resourceIds` is a subset of `n.resourceIds` (a parent's membership
set contains the union of its children's) and hence
`c.resourceCount ≤ n.resourceCount`. -/
theorem tag_counts_monotone (config : TagHierarchyConfig)
    (resources : List Resource) (root n c : TagNode)
    (hroot : root ∈ (buildTagHierarchy config resources).roots)
    (hn : n ∈ subnodes root) (hc : c ∈ n.children) :
    (∀ id ∈ c.resourceIds, id ∈ n.resourceIds) ∧
    c.resourceCount ≤ n.resourceCount := by
  have hcsub : c ∈ subnodes root :=
    subnodes_trans root n hn c (mem_subnodes_of_child hc (self_mem_subnodes c))
  obtain ⟨hmemN, hcntN, hndN⟩ :=
    hierarchy_node_spec config resources root n hroot hn
  obtain ⟨hmemC, hcntC, hndC⟩ :=
    hierarchy_node_spec config resources root c hroot hcsub
  have hsub : ∀ id ∈ c.resourceIds, id ∈ n.resourceIds := by
    intro id hid
    obtain ⟨r, hr, hrid, t, ht, hv⟩ := (hmemC id).1 hid
    exact (hmemN id).2 ⟨r, hr, hrid, t, ht, collect_mono_child hc hv⟩
  refine ⟨hsub, ?_⟩
  rw [hcntN, hcntC]
  exact nodup_subset_length hndC hsub

/-- Witness for count monotonicity: a parent `animal` with one child
`cat`, and a resource tagged `cat` counted in both. -/
theorem tag_counts_monotone_witness :
    (∀ id ∈ (countResourcesInNode
        [{ id := ['x'], source := ResourceSource.readwise
           type := ResourceType.article, title := [], url := []
           author := none, description := none, dateAdded := []
           datePublished := none, tags := [['c', 'a', 't']]
           imageUrl := none, readingProgress := none, itemType := none
           publicationTitle := none }]
        (buildTagNodeFromConfig ['c', 'a', 't']
          (TagNodeConfig.mk ['C'] [] []))).resourceIds,
      id ∈ (countResourcesInNode
        [{ id := ['x'], source := ResourceSource.readwise
           type := ResourceType.article, title := [], url := []
           author := none, description := none, dateAdded := []
           datePublished := none, tags := [['c', 'a', 't']]
           imageUrl := none, readingProgress := none, itemType := none
           publicationTitle := none }]
        (buildTagNodeFromConfig ['a', 'n', 'i', 'm', 'a', 'l']
          (TagNodeConfig.mk ['A'] []
            [(['c', 'a', 't'], TagNodeConfig.mk ['C'] [] [])]))).resourceIds) ∧
    (countResourcesInNode
        [{ id := ['x'], source := ResourceSource.readwise
           type := ResourceType.article, title := [], url := []
           author := none, description := none, dateAdded := []
           datePublished := none, tags := [['c', 'a', 't']]
           imageUrl := none, readingProgress := none, itemType := none
           publicationTitle := none }]
        (buildTagNodeFromConfig ['c', 'a', 't']
          (TagNodeConfig.mk ['C'] [] []))).resourceCount ≤
      (countResourcesInNode
        [{ id := ['x'], source := ResourceSource.readwise
           type := ResourceType.article, title := [], url := []
           author := none, description := none, dateAdded := []
           datePublished := none, tags := [['c', 'a', 't']]
           imageUrl := none, readingProgress := none, itemType := none
           publicationTitle := none }]
        (buildTagNodeFromConfig ['a', 'n', 'i', 'm', 'a', 'l']
          (TagNodeConfig.mk ['A'] []
            [(['c', 'a', 't'], TagNodeConfig.mk ['C'] [] [])]))).resourceCount := by
  have h := tag_counts_monotone
    (TagHierarchyConfig.mk
      [(['a', 'n', 'i', 'm', 'a', 'l'],
        TagNodeConfig.mk ['A'] []
          [(['c', 'a', 't'], TagNodeConfig.mk ['C'] [] [])])])
    [{ id := ['x'], source := ResourceSource.readwise
       type := ResourceType.article, title := [], url := []
       author := none, description := none, dateAdded := []
       datePublished := none, tags := [['c', 'a', 't']]
       imageUrl := none, readingProgress := none, itemType := none
       publicationTitle := none }]
    (countResourcesInNode
      [{ id := ['x'], source := ResourceSource.readwise
         type := ResourceType.article, title := [], url := []
         author := none, description := none, dateAdded := []
         datePublished := none, tags := [['c', 'a', 't']]
         imageUrl := none, readingProgress := none, itemType := none
         publicationTitle := none }]
      (buildTagNodeFromConfig ['a', 'n', 'i', 'm', 'a', 'l']
        (TagNodeConfig.mk ['A'] []
          [(['c', 'a', 't'], TagNodeConfig.mk ['C'] [] [])])))
    (countResourcesInNode
      [{ id := ['x'], source := ResourceSource.readwise
         type := ResourceType.article, title := [], url := []
         author := none, description := none, dateAdded := []
         datePublished := none, tags := [['c', 'a', 't']]
         imageUrl := none, readingProgress := none, itemType := none
         publicationTitle := none }]
      (buildTagNodeFromConfig ['a', 'n', 'i', 'm', 'a', 'l']
        (TagNodeConfig.mk ['A'] []
          [(['c', 'a', 't'], TagNodeConfig.mk ['C'] [] [])])))
    (countResourcesInNode
      [{ id := ['x'], source := ResourceSource.readwise
         type := ResourceType.article, title := [], url := []
         author := none, description := none, dateAdded := []
         datePublished := none, tags := [['c', 'a', 't']]
         imageUrl := none, readingProgress := none, itemType := none
         publicationTitle := none }]
      (buildTagNodeFromConfig ['c', 'a', 't']
        (TagNodeConfig.mk ['C'] [] [])))
    (by simp [buildTagHierarchy, buildChildren, countChildren])
    (self_mem_subnodes _)
    (by simp [buildTagNodeFromConfig, buildChildren, countResourcesInNode,
      countChildren, TagNode.children])
  exact h

/-- C8: `normalizeTag` is idempotent and its image is restricted: every
character of `normalizeTag t` is a lowercase letter, a digit or a hyphen;
`normalizeTag` applied twice equals it applied once; and consequently every
key of the `tagToNode` lookup map built by `buildTagLookup` inside
`buildTagHierarchy` is already in normalized form. -/
theorem normalizeTag_normal_form :
    (∀ t : Str, ∀ c ∈ normalizeTag t, isAllowedTagChar c = true) ∧
    (∀ t : Str, normalizeTag (normalizeTag t) = normalizeTag t) ∧
    (∀ (config : TagHierarchyConfig) (resources : List Resource) (k : Str),
      k ∈ (buildTagHierarchy config resources).tagToNode.map Prod.fst →
      normalizeTag k = k) := by
  refine ⟨fun t c hc => mem_normalizeTag_allowed hc, normalizeTag_idem, ?_⟩
  intro config resources k hk
  have heq : (buildTagHierarchy config resources).tagToNode =
      buildTagLookup
        (countChildren resources (buildChildren config.hierarchy)) := rfl
  rw [heq] at hk
  unfold buildTagLookup at hk
  rcases keys_addNodeList_param (fun c _ => keys_addNode c) [] k hk with
    h1 | h1
  · simp at h1
  · obtain ⟨c2, hc2, x, hx, hkey⟩ := h1
    rw [countChildren_eq_map] at hc2
    obtain ⟨c0, hc0, rfl⟩ := List.mem_map.1 hc2
    obtain ⟨m0, hm0, hkeyeq, haleq⟩ := subnodes_count_shape resources c0 x hx
    obtain ⟨p, hp, rfl⟩ := mem_buildChildren.1 hc0
    rcases hkey with rfl | hal
    · exact normalizeTag_idem _
    · rw [haleq] at hal
      exact built_aliases_norm p.2 p.1 m0 hm0 k hal

/-- Witness for the normal-form claim at concrete inputs. -/
theorem normalizeTag_normal_form_witness :
    normalizeTag (normalizeTag ['A', ' ', 'B']) =
      normalizeTag ['A', ' ', 'B'] ∧
    normalizeTag ['c', 'a', 't'] = ['c', 'a', 't'] := by
  refine ⟨normalizeTag_normal_form.2.1 ['A', ' ', 'B'], ?_⟩
  refine normalizeTag_normal_form.2.2
    (TagHierarchyConfig.mk [(['c', 'a', 't'], TagNodeConfig.mk ['C'] [] [])])
    [] ['c', 'a', 't'] ?_
  decide

end Blog
